import Mathlib

/-!
Verification development for the `durable-objects-nosql` query/update engine
(`src/types/index.ts` of the package, referred to below as "the source").
The engine is embedded shallowly: JavaScript runtime values are modelled by
the inductive `JsVal`, evaluation results (normal return / thrown exception /
recursion budget exhausted) by `JsRes`, and each source function is translated
into a Lean function of the same name.  The document matcher recurses through
nested sub-queries; the embedding makes that recursion structural by threading
an explicit `fuel : Nat` bound on the nesting depth of `matchesQuery` calls
(the source recursion always descends into a structurally smaller operand, so
every concrete query is computed exactly by any sufficiently large fuel; fuel
exhaustion is reported as the distinguished outcome `JsRes.diverge`, never as
a thrown error).
-/

set_option maxHeartbeats 1000000

/-- JavaScript runtime values, as far as the engine manipulates them:
`undefined`, `null`, booleans, numbers (modelled as integers, with a separate
constructor for `NaN`; non-integral doubles are not exercised by the engine's
tests or by any claim), strings, arrays and plain objects.  An object is its
ordered own-enumerable field list (JavaScript object keys are unique and
enumeration order is insertion order). -/
inductive JsVal where
  | undef
  | null
  | bool (b : Bool)
  | num (n : Int)
  | nan
  | str (s : String)
  | arr (elems : List JsVal)
  | obj (fields : List (String × JsVal))

/-- Outcome of evaluating a piece of JavaScript: a normal value, a thrown
exception (carrying a message), or exhaustion of the embedding's explicit
recursion budget (an artifact of the embedding, not a behaviour of the
source). -/
inductive JsRes (α : Type) where
  | ok (a : α)
  | thrown (e : String)
  | diverge

/-- Sequencing of JavaScript evaluation: exceptions and budget exhaustion
propagate. -/
def JsRes.bind {α β : Type} : JsRes α → (α → JsRes β) → JsRes β
  | .ok a, f => f a
  | .thrown e, _ => .thrown e
  | .diverge, _ => .diverge

instance : Monad JsRes where
  pure := JsRes.ok
  bind := JsRes.bind

/-- Result is a normal completion. -/
def JsRes.isOk {α : Type} : JsRes α → Bool
  | .ok _ => true
  | _ => false

/-- JavaScript truthiness: `undefined`, `null`, `false`, `0`, `NaN` and the
empty string are falsy; every other value (including empty arrays and
objects) is truthy. -/
def truthy : JsVal → Bool
  | .undef => false
  | .null => false
  | .bool b => b
  | .num n => n != 0
  | .nan => false
  | .str s => s != ""
  | .arr _ => true
  | .obj _ => true

/-- Array.isArray. -/
def isArray : JsVal → Bool
  | .arr _ => true
  | _ => false

/-- Strict equality `===`.  Primitives compare by value, `NaN` is unequal to
itself, and two composite values built independently are never identical
(JavaScript compares objects and arrays by reference; in this value-level
model distinct structures model distinct references, which is exactly the
situation in the engine, where a document value and a query operand are
always separately constructed). -/
def jsStrictEq : JsVal → JsVal → Bool
  | .undef, .undef => true
  | .null, .null => true
  | .bool a, .bool b => a == b
  | .num a, .num b => a == b
  | .str a, .str b => a == b
  | _, _ => false

/-- SameValueZero equality, used by `Array.prototype.includes`: like `===`
except that `NaN` matches `NaN`. -/
def jsSameValueZero : JsVal → JsVal → Bool
  | .nan, .nan => true
  | a, b => jsStrictEq a b

/-- Whitespace recognized when trimming a string before numeric parsing. -/
def isWsChar (c : Char) : Bool :=
  c = ' ' || c = '\t' || c = '\n' || c = '\r'

/-- Decimal digit run to a number, `none` on the empty run or a non-digit. -/
def digitsToNat : List Char → Option Nat
  | [] => none
  | cs => go cs 0
where
  go : List Char → Nat → Option Nat
    | [], acc => some acc
    | c :: cs, acc =>
      if c.isDigit then go cs (acc * 10 + (c.toNat - '0'.toNat)) else none

/-- String-to-integer parse used by ToNumber on strings: optional sign and a
decimal digit run. -/
def parseIntStr : List Char → Option Int
  | '-' :: cs => (digitsToNat cs).map (fun n => -(n : Int))
  | '+' :: cs => (digitsToNat cs).map (fun n => (n : Int))
  | cs => (digitsToNat cs).map (fun n => (n : Int))

/-- ToNumber coercion, `none` meaning `NaN`.  Strings parse as (trimmed)
integers with the empty string giving `0`; array/object-to-primitive
coercion is not modelled (no claim exercises it) and yields `NaN`. -/
def toNumber : JsVal → Option Int
  | .undef => none
  | .null => some 0
  | .bool b => some (if b then 1 else 0)
  | .num n => some n
  | .nan => none
  | .str s =>
    (match (s.data.dropWhile isWsChar).reverse.dropWhile isWsChar |>.reverse with
     | [] => some 0
     | cs => parseIntStr cs)
  | .arr _ => none
  | .obj _ => none

/-- Lexicographic order on character lists (code-point comparison, mirroring
string relational comparison). -/
def charListLt : List Char → List Char → Bool
  | [], [] => false
  | [], _ :: _ => true
  | _ :: _, [] => false
  | a :: as, b :: bs =>
    if a < b then true else if b < a then false else charListLt as bs

/-- Numeric branch of the relational comparison: `none` (the undefined
result) if either coercion gave `NaN`. -/
def numLtRaw (ta tb : Option Int) : Option Bool :=
  match ta, tb with
  | some n₁, some n₂ => some (decide (n₁ < n₂))
  | _, _ => none

/-- Abstract relational comparison `a < b`, `none` meaning the undefined
result (a `NaN` operand): two strings compare lexicographically, otherwise
both operands are coerced with ToNumber. -/
def jsLtRaw (a b : JsVal) : Option Bool :=
  match a, b with
  | .str s₁, .str s₂ => some (charListLt s₁.data s₂.data)
  | _, _ => numLtRaw (toNumber a) (toNumber b)

/-- The operator `a < b`: an undefined comparison result is `false`. -/
def jsLt (a b : JsVal) : Bool := (jsLtRaw a b).getD false

/-- The operator `a > b`, which evaluates `b < a`. -/
def jsGt (a b : JsVal) : Bool := (jsLtRaw b a).getD false

/-- The operator `a >= b`: the negation of `a < b` unless that comparison is
undefined, in which case `false`. -/
def jsGe (a b : JsVal) : Bool :=
  match jsLtRaw a b with
  | none => false
  | some r => !r

/-- The operator `a <= b`: the negation of `b < a` unless that comparison is
undefined, in which case `false`. -/
def jsLe (a b : JsVal) : Bool :=
  match jsLtRaw b a with
  | none => false
  | some r => !r

/-- The `typeof` operator's string. -/
def jsTypeof : JsVal → String
  | .undef => "undefined"
  | .null => "object"
  | .bool _ => "boolean"
  | .num _ => "number"
  | .nan => "number"
  | .str _ => "string"
  | .arr _ => "object"
  | .obj _ => "object"

/-- Canonical array-index reading of a property key: a plain decimal numeral
with no leading zero (JavaScript treats only such keys as array indices). -/
def canonicalIndex (key : String) : Option Nat :=
  match key.data with
  | [] => none
  | ['0'] => some 0
  | '0' :: _ => none
  | cs => digitsToNat cs

/-- Property read `base[key]` for a single key (no throw: property access on
primitives yields `undefined`, except the string/array index and `length`
cases).  Array indices must be canonical decimal numerals, as in
JavaScript. -/
def jsIndex (base : JsVal) (key : String) : JsVal :=
  match base with
  | .obj fields => (fields.lookup key).getD .undef
  | .arr elems =>
    if key = "length" then .num elems.length
    else
      match canonicalIndex key with
      | some i => elems.getD i .undef
      | none => .undef
  | .str s =>
    if key = "length" then .num s.length
    else
      match canonicalIndex key with
      | some i =>
        (match s.data.get? i with
         | some c => .str (String.singleton c)
         | none => .undef)
      | none => .undef
  | _ => (.undef)

/-- Source `getNestedProperty` walk over the already-split path: short-circuit
to `undefined` the moment the current value is `null` or `undefined`, else
step through one property read per segment. -/
def walkGet : List String → JsVal → JsVal
  | [], current => current
  | part :: parts, current =>
    match current with
    | .null => .undef
    | .undef => .undef
    | current => walkGet parts (jsIndex current part)

/-- Accumulating split of a character list on `.`. -/
def splitSegs : List Char → List Char → List String
  | [], acc => [String.mk acc.reverse]
  | c :: cs, acc =>
    if c = '.' then String.mk acc.reverse :: splitSegs cs []
    else splitSegs cs (c :: acc)

/-- Path split on the dot separator (`path.split('.')`): the empty path gives
one empty segment, adjacent dots give empty segments. -/
def splitPath (s : String) : List String :=
  splitSegs s.data []

/-- Source helper `getNestedProperty(obj, path)`: split the path on `.` and
walk it. -/
def getNestedProperty (o : JsVal) (path : String) : JsVal :=
  walkGet (splitPath path) o

/-- Membership test `key in base` (own enumerable properties; the engine only
ever applies it to JSON-decoded data, so prototype-inherited names are not
modelled).  Applying `in` to a primitive throws a TypeError. -/
def jsHasOwn (base : JsVal) (key : String) : JsRes Bool :=
  match base with
  | .obj fields => .ok (fields.lookup key).isSome
  | .arr elems =>
    .ok (key = "length" ||
      (match canonicalIndex key with
       | some i => i < elems.length
       | none => false))
  | _ => .thrown "TypeError"

/-- Assignment `base[key] := v` on a value, rebuilding the container.  A new
object key is appended (JavaScript enumeration order), an existing key keeps
its position; assignment to a property of a primitive throws (the source is
strict-mode module code); growing an array beyond its end or through a
non-index key is not modelled (no claim or test exercises it). -/
def setOwn (base : JsVal) (key : String) (v : JsVal) : JsRes JsVal :=
  match base with
  | .obj fields =>
    if (fields.lookup key).isSome then
      .ok (.obj (fields.map (fun p => if p.1 = key then (p.1, v) else p)))
    else
      .ok (.obj (fields ++ [(key, v)]))
  | .arr elems =>
    (match canonicalIndex key with
     | some i =>
       if i < elems.length then .ok (.arr (elems.set i v))
       else if i = elems.length then .ok (.arr (elems ++ [v]))
       else .thrown "UnmodelledSparseArray"
     | none => .thrown "UnmodelledArrayProperty")
  | _ => .thrown "TypeError"

/-- Replacement of a known-present child after a nested rebuild; used by the
delete walk, which in the source mutates the child in place and never
reassigns it. -/
def replaceOwn (base : JsVal) (key : String) (newChild : JsVal) : JsVal :=
  match base with
  | .obj fields => .obj (fields.map (fun p => if p.1 = key then (p.1, newChild) else p))
  | .arr elems =>
    (match canonicalIndex key with
     | some i => .arr (elems.set i newChild)
     | none => .arr elems)
  | base => base

/-- Effect of `delete base[key]` on a value: an object loses the field, a
deleted array slot becomes a hole (reads as `undefined`); deleting a property
of a primitive is a silent no-op (the primitive is boxed). -/
def deleteOwn (base : JsVal) (key : String) : JsVal :=
  match base with
  | .obj fields => .obj (fields.filter (fun p => !(p.1 = key : Bool)))
  | .arr elems =>
    (match canonicalIndex key with
     | some i => .arr (elems.set i .undef)
     | none => .arr elems)
  | base => base

/-- Source `setNestedProperty` walk over the split path: on a missing
intermediate segment a fresh empty object is created (`current[part] = {}`),
then the walk descends; the final segment is assigned.  The in-place
mutations of the source are rendered as a rebuild along the path, which
yields the same resulting document value. -/
def walkSet : List String → JsVal → JsVal → JsRes JsVal
  | [], current, _ => .ok current
  | [last], current, v => setOwn current last v
  | part :: parts, current, v => do
    let present ← jsHasOwn current part
    let child := if present then jsIndex current part else .obj []
    let child2 ← walkSet parts child v
    setOwn current part child2

/-- Source helper `setNestedProperty(obj, path, value)`, as the document
value it produces. -/
def setNestedProperty (o : JsVal) (path : String) (v : JsVal) : JsRes JsVal :=
  walkSet (splitPath path) o v

/-- Source `deleteNestedProperty` walk: a missing intermediate segment makes
the whole call a silent no-op; the final segment is deleted. -/
def walkDelete : List String → JsVal → JsRes JsVal
  | [], current => .ok current
  | [last], current => .ok (deleteOwn current last)
  | part :: parts, current => do
    let present ← jsHasOwn current part
    if present then
      let child2 ← walkDelete parts (jsIndex current part)
      .ok (replaceOwn current part child2)
    else
      .ok current

/-- Source helper `deleteNestedProperty(obj, path)`, as the document value it
produces. -/
def deleteNestedProperty (o : JsVal) (path : String) : JsRes JsVal :=
  walkDelete (splitPath path) o

/-- Entries of an array value, with canonical decimal keys. -/
def indexedEntries (elems : List JsVal) : List (String × JsVal) :=
  elems.enum.map (fun p => (toString p.1, p.2))

/-- Object.entries: throws on `null`/`undefined`, lists fields of objects,
indexed elements of arrays, indexed one-character strings of strings, and is
empty on the remaining primitives. -/
def entriesOf : JsVal → JsRes (List (String × JsVal))
  | .undef => .thrown "TypeError"
  | .null => .thrown "TypeError"
  | .obj fields => .ok fields
  | .arr elems => .ok (indexedEntries elems)
  | .str s => .ok (s.data.enum.map (fun p => (toString p.1, .str (String.singleton p.2))))
  | _ => .ok []

/-- Object.entries of a value already guarded to be a non-null object
(`value !== null && typeof value === 'object'`), hence an object or an
array. -/
def objEntries : JsVal → List (String × JsVal)
  | .obj fields => fields
  | .arr elems => indexedEntries elems
  | _ => []

/-- String form of a primitive, for the regular-expression paths
(`new RegExp(pattern)` coerces its argument, `.test(value)` coerces the
subject).  Composite-to-string coercion is not modelled; only whether the
regex path throws is claim-relevant, never the match verdict. -/
def jsToStringShallow : JsVal → String
  | .undef => "undefined"
  | .null => "null"
  | .bool b => if b then "true" else "false"
  | .num n => toString n
  | .nan => "NaN"
  | .str s => s
  | .arr _ => ""
  | .obj _ => ""

/-- Pattern string handed to `new RegExp`: `undefined` gives the empty
pattern. -/
def regexPatternString : JsVal → String
  | .undef => ""
  | v => jsToStringShallow v

/-- Group-balance check over a pattern, modelling the class of
`SyntaxError`s that `new RegExp` raises for unmatched parentheses (escape
sequences are not modelled; the only claim-relevant fact is that an
unterminated group such as `"("` is rejected, which this check captures). -/
def regexParenBalance : List Char → Nat → Bool
  | [], depth => depth = 0
  | c :: cs, depth =>
    if c = '(' then regexParenBalance cs (depth + 1)
    else if c = ')' then
      match depth with
      | 0 => false
      | d + 1 => regexParenBalance cs d
    else regexParenBalance cs depth

/-- Validity of a regular-expression pattern, as far as modelled. -/
def regexPatternOk (p : String) : Bool :=
  regexParenBalance p.data 0

def isPrefixCL : List Char → List Char → Bool
  | [], _ => true
  | _ :: _, [] => false
  | a :: as, b :: bs => a = b && isPrefixCL as bs

def containsCL (needle : List Char) : List Char → Bool
  | [] => needle.isEmpty
  | hay :: rest => isPrefixCL needle (hay :: rest) || containsCL needle rest

/-- Match verdict of a compiled pattern against a subject, modelled as
substring containment; no claim depends on this verdict, only on whether
compilation throws. -/
def regexTest (p s : String) : Bool :=
  p = "" || containsCL p.data s.data

/-- Value is the `undefined` value. -/
def isUndef : JsVal → Bool
  | .undef => true
  | _ => false

/-- Key begins with the operator sigil (`key.startsWith('$')`). -/
def startsWithDollar (key : String) : Bool :=
  match key.data with
  | c :: _ => c = '$'
  | [] => false

/-- Source `matchesOperator(value, operator, operatorValue)`.  The one
recursive case, `$not`, re-enters the query matcher on a synthetic
single-field document; the matcher is passed in as `recQ` so that the
recursion is carried by `matchesQuery`'s explicit depth budget. -/
def matchesOperator (recQ : JsVal → JsVal → JsRes Bool) (value : JsVal)
    (operator : String) (operatorValue : JsVal) : JsRes Bool :=
  match operator with
  | "$eq" => .ok (jsStrictEq value operatorValue)
  | "$gt" => .ok (jsGt value operatorValue)
  | "$gte" => .ok (jsGe value operatorValue)
  | "$lt" => .ok (jsLt value operatorValue)
  | "$lte" => .ok (jsLe value operatorValue)
  | "$ne" => .ok (!jsStrictEq value operatorValue)
  | "$in" =>
    .ok (match operatorValue with
         | .arr elems => elems.any (fun x => jsSameValueZero x value)
         | _ => false)
  | "$nin" =>
    .ok (match operatorValue with
         | .arr elems => !(elems.any (fun x => jsSameValueZero x value))
         | _ => false)
  | "$not" => do
    let b ← recQ (.obj [("value", value)]) (.obj [("value", operatorValue)])
    pure (!b)
  | "$exists" =>
    .ok (if truthy operatorValue then !(isUndef value) else isUndef value)
  | "$type" => .ok (jsStrictEq (.str (jsTypeof value)) operatorValue)
  | "$regex" =>
    let p := regexPatternString operatorValue
    if regexPatternOk p then .ok (regexTest p (jsToStringShallow value))
    else .thrown "SyntaxError"
  | _ => .ok false

/-- Array.prototype.every with a possibly-throwing callback: sequential,
short-circuiting on the first `false`. -/
def everyM (f : JsVal → JsRes Bool) : List JsVal → JsRes Bool
  | [] => .ok true
  | x :: xs => do
    let b ← f x
    if b then everyM f xs else pure false

/-- Array.prototype.some with a possibly-throwing callback: sequential,
short-circuiting on the first `true`. -/
def anyM (f : JsVal → JsRes Bool) : List JsVal → JsRes Bool
  | [] => .ok false
  | x :: xs => do
    let b ← f x
    if b then pure true else anyM f xs

/-- Loop of `matchesQuery` over the entries of an operator sub-mapping
(`for (const [op, opValue] of Object.entries(value))`): every operator must
hold. -/
def opLoop (recQ : JsVal → JsVal → JsRes Bool) (docValue : JsVal) :
    List (String × JsVal) → JsRes Bool
  | [] => .ok true
  | (op, opValue) :: rest => do
    let b ← matchesOperator recQ docValue op opValue
    if b then opLoop recQ docValue rest else pure false

/-- Main loop of `matchesQuery` over `Object.entries(query)`: a `$`-prefixed
key is a logical composition operator (`$and`/`$or`/`$nor` demand an array
operand and fail the predicate otherwise; an unknown `$` key fails the
predicate); any other key resolves the document value at that path and
tests it, either against each entry of a non-null object operand as
`{operator: operand}`, or by implicit `$eq` against a primitive operand. -/
def entryLoop (recQ : JsVal → JsVal → JsRes Bool) (document : JsVal) :
    List (String × JsVal) → JsRes Bool
  | [] => .ok true
  | (key, value) :: rest =>
    if startsWithDollar key then
      match key with
      | "$and" =>
        (match value with
         | .arr subs => do
           let b ← everyM (fun sub => recQ document sub) subs
           if b then entryLoop recQ document rest else pure false
         | _ => .ok false)
      | "$or" =>
        (match value with
         | .arr subs => do
           let b ← anyM (fun sub => recQ document sub) subs
           if b then entryLoop recQ document rest else pure false
         | _ => .ok false)
      | "$nor" =>
        (match value with
         | .arr subs => do
           let b ← anyM (fun sub => recQ document sub) subs
           if b then pure false else entryLoop recQ document rest
         | _ => .ok false)
      | _ => .ok false
    else
      let docValue := getNestedProperty document key
      match value with
      | .obj _ => do
        let b ← opLoop recQ docValue (objEntries value)
        if b then entryLoop recQ document rest else pure false
      | .arr _ => do
        let b ← opLoop recQ docValue (objEntries value)
        if b then entryLoop recQ document rest else pure false
      | _ => do
        let b ← matchesOperator recQ docValue "$eq" value
        if b then entryLoop recQ document rest else pure false

/-- Source `matchesQuery(document, query)`: enumerate the query's entries
(throwing, like `Object.entries`, on a `null`/`undefined` query) and require
every entry to be satisfied.  `fuel` bounds the depth of nested
`matchesQuery` re-entries (through `$and`/`$or`/`$nor` sub-queries and
`$not`); any fuel at least the query's nesting depth computes the source's
verdict. -/
def matchesQuery : Nat → JsVal → JsVal → JsRes Bool
  | 0, _, _ => .diverge
  | fuel + 1, document, query => do
    let entries ← entriesOf query
    entryLoop (matchesQuery fuel) document entries

/-- Object spread `{ ...document }` at the level of values: an object's own
field list, an array or string spread as indexed fields, any other primitive
an empty object. -/
def shallowCopy : JsVal → JsVal
  | .obj fields => .obj fields
  | .arr elems => .obj (indexedEntries elems)
  | .str s => .obj (s.data.enum.map (fun p => (toString p.1, .str (String.singleton p.2))))
  | _ => .obj []

/-- Addition `a + b`: string concatenation when a string operand is involved,
otherwise numeric addition with `NaN` propagation.  Composite operands (whose
ToPrimitive is not modelled) give `NaN`; neither the engine's tests nor any
claim applies `$inc` to composites. -/
def jsPlus (a b : JsVal) : JsVal :=
  match a, b with
  | .str s₁, _ => .str (s₁ ++ jsToStringShallow b)
  | _, .str s₂ => .str (jsToStringShallow a ++ s₂)
  | _, _ =>
    match toNumber a, toNumber b with
    | some n₁, some n₂ => .num (n₁ + n₂)
    | _, _ => .nan

/-- Loop of `applyUpdate`'s `$set` case over a field mapping. -/
def setLoop : List (String × JsVal) → JsVal → JsRes JsVal
  | [], result => .ok result
  | (field, value) :: rest, result => do
    let r ← setNestedProperty result field value
    setLoop rest r

/-- Loop of `applyUpdate`'s `$unset` case (operand values ignored). -/
def unsetLoop : List (String × JsVal) → JsVal → JsRes JsVal
  | [], result => .ok result
  | (field, _) :: rest, result => do
    let r ← deleteNestedProperty result field
    unsetLoop rest r

/-- Loop of `applyUpdate`'s `$inc` case: the current value, defaulted to `0`
when falsy (`|| 0`), plus the operand. -/
def incLoop : List (String × JsVal) → JsVal → JsRes JsVal
  | [], result => .ok result
  | (field, value) :: rest, result => do
    let currentValue := getNestedProperty result field
    let base := if truthy currentValue then currentValue else .num 0
    let r ← setNestedProperty result field (jsPlus base value)
    incLoop rest r

/-- Loop of `applyUpdate`'s `$push` case: the current value defaulted to an
empty array when falsy (`|| []`); a truthy non-array throws. -/
def pushLoop : List (String × JsVal) → JsVal → JsRes JsVal
  | [], result => .ok result
  | (field, value) :: rest, result =>
    let currentValue := getNestedProperty result field
    let base := if truthy currentValue then currentValue else .arr []
    match base with
    | .arr elems => do
      let r ← setNestedProperty result field (.arr (elems ++ [value]))
      pushLoop rest r
    | _ => .thrown ("Cannot apply $push to non-array field: " ++ field)

/-- Array.prototype.filter for `$pull`, with the possibly-throwing matcher
callback: an element is kept when the matcher rejects it. -/
def pullFilter (pred : JsVal → JsRes Bool) : List JsVal → JsRes (List JsVal)
  | [] => .ok []
  | x :: xs => do
    let b ← pred x
    let rest ← pullFilter pred xs
    pure (if b then rest else x :: rest)

/-- Loop of `applyUpdate`'s `$pull` case: the current value must already be an
array (absence is not defaulted here); elements matching the operand through
the Predicate Evaluator (wrapped as `{item: element}` against
`{item: operand}`) are removed. -/
def pullLoop (fuel : Nat) : List (String × JsVal) → JsVal → JsRes JsVal
  | [], result => .ok result
  | (field, value) :: rest, result =>
    match getNestedProperty result field with
    | .arr elems => do
      let kept ← pullFilter
        (fun item => matchesQuery fuel (.obj [("item", item)]) (.obj [("item", value)])) elems
      let r ← setNestedProperty result field (.arr kept)
      pullLoop fuel rest r
    | _ => .thrown ("Cannot apply $pull to non-array field: " ++ field)

/-- Loop of `applyUpdate`'s `$addToSet` case: like `$push` (falsy current
value defaults to an empty array) but the operand is appended only when
`includes` does not already find it. -/
def addToSetLoop : List (String × JsVal) → JsVal → JsRes JsVal
  | [], result => .ok result
  | (field, value) :: rest, result =>
    let currentValue := getNestedProperty result field
    let base := if truthy currentValue then currentValue else .arr []
    match base with
    | .arr elems =>
      if elems.any (fun x => jsSameValueZero x value) then
        addToSetLoop rest result
      else do
        let r ← setNestedProperty result field (.arr (elems ++ [value]))
        addToSetLoop rest r
    | _ => .thrown ("Cannot apply $addToSet to non-array field: " ++ field)

/-- Loop of `applyUpdate`'s `$pop` case: the current value must already be an
array; operand `=== 1` removes the last element, `=== -1` the first, and any
other operand leaves the field untouched. -/
def popLoop : List (String × JsVal) → JsVal → JsRes JsVal
  | [], result => .ok result
  | (field, value) :: rest, result =>
    match getNestedProperty result field with
    | .arr elems =>
      if jsStrictEq value (.num 1) then do
        let r ← setNestedProperty result field (.arr elems.dropLast)
        popLoop rest r
      else if jsStrictEq value (.num (-1)) then do
        let r ← setNestedProperty result field (.arr (elems.drop 1))
        popLoop rest r
      else popLoop rest result
    | _ => .thrown ("Cannot apply $pop to non-array field: " ++ field)

/-- Dispatch of one update operator of `applyUpdate` on the working result;
the field mapping is enumerated exactly when the operator is recognized (the
source's `switch` has no default case, so an unknown operator is a no-op). -/
def opApply (fuel : Nat) (operator : String) (fieldsVal : JsVal) (result : JsVal) :
    JsRes JsVal :=
  match operator with
  | "$set" => do let fs ← entriesOf fieldsVal; setLoop fs result
  | "$unset" => do let fs ← entriesOf fieldsVal; unsetLoop fs result
  | "$inc" => do let fs ← entriesOf fieldsVal; incLoop fs result
  | "$push" => do let fs ← entriesOf fieldsVal; pushLoop fs result
  | "$pull" => do let fs ← entriesOf fieldsVal; pullLoop fuel fs result
  | "$addToSet" => do let fs ← entriesOf fieldsVal; addToSetLoop fs result
  | "$pop" => do let fs ← entriesOf fieldsVal; popLoop fs result
  | _ => .ok result

/-- Loop of `applyUpdate` over `Object.entries(update)`. -/
def opsLoop (fuel : Nat) : List (String × JsVal) → JsVal → JsRes JsVal
  | [], result => .ok result
  | (operator, fieldsVal) :: rest, result => do
    let r ← opApply fuel operator fieldsVal result
    opsLoop fuel rest r

/-- Source `applyUpdate(document, update)` as the document value it returns:
a shallow copy of the document, transformed by each update operator in
enumeration order.  (The aliasing of nested containers between the input and
the shallow copy — the in-place-mutation aspect of the source — is modelled
separately on the heap model below; this value-level function captures the
returned document.) -/
def applyUpdate (fuel : Nat) (document update : JsVal) : JsRes JsVal := do
  let ops ← entriesOf update
  opsLoop fuel ops (shallowCopy document)

/-- Array.prototype.slice with only a begin argument (`result.slice(k)`):
negative values count from the end, clamped. -/
def jsSliceFrom (k : Int) (l : List JsVal) : List JsVal :=
  let len : Int := l.length
  let start := if k < 0 then max (len + k) 0 else min k len
  l.drop start.toNat

/-- Array.prototype.slice from the start with an end argument
(`result.slice(0, m)`): negative values count from the end, clamped. -/
def jsSliceTake (m : Int) (l : List JsVal) : List JsVal :=
  let len : Int := l.length
  let stop := if m < 0 then max (len + m) 0 else min m len
  l.take stop.toNat

/-- Comparator closed over the sort specification, as built inside
`CursorImpl.toArray`: iterate the specification's entries in insertion
order; the first key on which the resolved values compare strictly decides,
scaled by the direction; exhausting the keys gives a tie. -/
def jsSortCmp : List (String × Int) → JsVal → JsVal → Int
  | [], _, _ => 0
  | (key, direction) :: rest, a, b =>
    let valueA := getNestedProperty a key
    let valueB := getNestedProperty b key
    if jsLt valueA valueB then -1 * direction
    else if jsGt valueA valueB then 1 * direction
    else jsSortCmp rest a b

/-- State of a `CursorImpl`: the fetched document set (`documents`, initially
empty), the `_documents` slot read by the cache check of the find-patched
`toArray` (`udocs` — no code path ever assigns it), and the `_limit`/`_skip`/
`_sort` modifiers (`lim`/`skp`/`srt`). -/
structure CursorState where
  documents : List JsVal := []
  udocs : Option (List JsVal) := none
  lim : Option Int := none
  skp : Option Int := none
  srt : Option (List (String × Int)) := none

namespace CursorImpl

/-- Source `CursorImpl.toArray`: copy the documents; when a sort
specification is set, sort them with the multi-key comparator (the
ECMAScript sort is stable, rendered here by a stable insertion sort keeping
an element before the later-inserted ties); when `_skip` is set and truthy
(nonzero), positional-slice from it; when `_limit` is set and truthy, slice
up to it. -/
def toArray (c : CursorState) : List JsVal :=
  let result := c.documents
  let result :=
    match c.srt with
    | some spec => List.insertionSort (fun a b => jsSortCmp spec a b ≤ 0) result
    | none => result
  let result :=
    match c.skp with
    | some k => if k = 0 then result else jsSliceFrom k result
    | none => result
  match c.lim with
  | some m => if m = 0 then result else jsSliceTake m result
  | none => result

/-- Source `CursorImpl.first`: the head of `toArray`, or null (rendered as
`none`). -/
def first (c : CursorState) : Option JsVal :=
  (toArray c).head?

/-- Source `CursorImpl.count`: the length of the cursor's fetched document
set, with no modifier applied (and no fetch triggered). -/
def count (c : CursorState) : Nat :=
  c.documents.length

/-- Source `CursorImpl.limit`: overwrite the `_limit` modifier. -/
def limit (c : CursorState) (n : Int) : CursorState :=
  { c with lim := some n }

/-- Source `CursorImpl.skip`: overwrite the `_skip` modifier. -/
def skip (c : CursorState) (n : Int) : CursorState :=
  { c with skp := some n }

/-- Source `CursorImpl.sort`: overwrite the `_sort` modifier. -/
def sortBy (c : CursorState) (spec : List (String × Int)) : CursorState :=
  { c with srt := some spec }

end CursorImpl

/-- Persisted record: identifier, collection discriminator and the stored
document (the source keeps the JSON text of the document; the lossless
round-trip of encode/decode is elided and the decoded value stored
directly). -/
structure StoredDoc where
  id : String
  coll : String
  data : JsVal

/-- The documents table, in scan order. -/
abbrev Store := List StoredDoc

/-- Source `getAllDocuments`: scan every record of the collection's
partition (`SELECT * FROM documents WHERE collection = ?`) and decode each
payload. -/
def getAllDocuments (st : Store) (name : String) : List JsVal :=
  (st.filter (fun r => r.coll == name)).map (fun r => r.data)

/-- The filter the find cursor's `_execute` applies to the scanned documents
(`documents.filter((doc) => this.matchesQuery(doc, query))`); a throwing
predicate aborts the filter. -/
def filterMatches (fuel : Nat) (query : JsVal) : List JsVal → JsRes (List JsVal)
  | [] => .ok []
  | d :: ds => do
    let b ← matchesQuery fuel d query
    let rest ← filterMatches fuel query ds
    pure (if b then d :: rest else rest)

/-- The `_execute` closure installed by `CollectionImpl.find`: scan the
collection and keep the documents matching the query. -/
def findExecute (fuel : Nat) (st : Store) (name : String) (query : JsVal) :
    JsRes (List JsVal) :=
  filterMatches fuel query (getAllDocuments st name)

/-- The cursor `CollectionImpl.find` returns, before any call: empty
document set, no modifiers, `_documents` never assigned. -/
def newFindCursor : CursorState := {}

/-- The patched `toArray` installed by `CollectionImpl.find` on the cursor it
returns: when the `_documents` slot is unset or holds an empty list (it is
never assigned anywhere, so this test is decided by its initial
`undefined`), run `_execute` and store the matches into `documents`, then
delegate to the original `toArray`.  The third component counts how many
storage scans (`_execute` runs) the call performed, so that the fetch-once
contract can be stated. -/
def findToArray (fuel : Nat) (st : Store) (name : String) (query : JsVal)
    (c : CursorState) : JsRes (List JsVal × CursorState × Nat) :=
  if c.udocs.isNone || (c.udocs.getD []).isEmpty then do
    let docs ← findExecute fuel st name query
    let c2 := { c with documents := docs }
    pure (CursorImpl.toArray c2, c2, 1)
  else
    pure (CursorImpl.toArray c, c, 0)

/-- Source `CursorImpl.first` on a find cursor (used by `findOne`): the
patched `toArray`, then its head or null. -/
def findFirst (fuel : Nat) (st : Store) (name : String) (query : JsVal)
    (c : CursorState) : JsRes (Option JsVal × CursorState × Nat) := do
  let r ← findToArray fuel st name query c
  pure (r.1.head?, r.2.1, r.2.2)

/-- Source `CollectionImpl.findOne`: `find(query)` then `first()` on the
fresh cursor. -/
def findOne (fuel : Nat) (st : Store) (name : String) (query : JsVal) :
    JsRes (Option JsVal) := do
  let r ← findFirst fuel st name query newFindCursor
  pure r.1

/-- Effect on the table of `UPDATE documents SET data = ? WHERE id = ? AND
collection = ?`, the identifier binding being the located document's `_id`
property: identifiers are strings (generated by `crypto.randomUUID`), so
only a string `_id` can name a stored key. -/
def overwriteRecord (st : Store) (name : String) (idv : JsVal) (newDoc : JsVal) :
    Store :=
  match idv with
  | .str s => st.map (fun r => if r.id == s && r.coll == name then { r with data := newDoc } else r)
  | _ => st

/-- Source `CollectionImpl.updateOne`: locate the first matching document via
`findOne`; none gives `{matchedCount: 0, modifiedCount: 0}` with the table
untouched, otherwise the Mutation Applier's result overwrites the located
record and the counts are `{1, 1}`. -/
def updateOne (fuel : Nat) (st : Store) (name : String) (query update : JsVal) :
    JsRes (Int × Int × Store) := do
  let d? ← findOne fuel st name query
  match d? with
  | none => pure (0, 0, st)
  | some document => do
    let id := jsIndex document "_id"
    let updatedDocument ← applyUpdate fuel document update
    pure (1, 1, overwriteRecord st name id updatedDocument)

/-!
Heap model.  The value-level `applyUpdate` above captures the document the
source returns; claim-relevant as well is what the source does to the INPUT
document, which is a matter of reference semantics: `{ ...document }` shares
every nested container between the input and the copy, and
`setNestedProperty` mutates containers in place.  The heap model makes
object identity explicit: composites live in heap cells addressed by `ref`
values. -/

/-- Heap-model runtime values: primitives are immediate, every object or
array is a reference into the heap. -/
inductive HVal where
  | undef
  | null
  | bool (b : Bool)
  | num (n : Int)
  | nan
  | str (s : String)
  | ref (a : Nat)
deriving DecidableEq, Repr

/-- A heap cell: one object (its ordered field list) or one array (its
element list). -/
inductive HObj where
  | objCell (fields : List (String × HVal))
  | arrCell (elems : List HVal)
deriving DecidableEq, Repr

/-- The heap: an allocation counter and the allocated cells. -/
structure Heap where
  next : Nat
  cells : List (Nat × HObj)
deriving DecidableEq, Repr

/-- Cell at an address. -/
def Heap.get (h : Heap) (a : Nat) : Option HObj :=
  h.cells.lookup a

/-- In-place overwrite of the cell at an address. -/
def Heap.setCell (h : Heap) (a : Nat) (o : HObj) : Heap :=
  { h with cells := h.cells.map (fun p => if p.1 == a then (a, o) else p) }

/-- Allocation of a fresh cell. -/
def Heap.alloc (h : Heap) (o : HObj) : Nat × Heap :=
  (h.next, { next := h.next + 1, cells := (h.next, o) :: h.cells })

/-- Heap-model truthiness: references (objects, arrays) are truthy. -/
def hTruthy : HVal → Bool
  | .undef => false
  | .null => false
  | .bool b => b
  | .num n => n != 0
  | .nan => false
  | .str s => s != ""
  | .ref _ => true

/-- Heap-model strict equality `===`: references compare by address. -/
def hStrictEq : HVal → HVal → Bool
  | .undef, .undef => true
  | .null, .null => true
  | .bool a, .bool b => a == b
  | .num a, .num b => a == b
  | .str a, .str b => a == b
  | .ref a, .ref b => a == b
  | _, _ => false

/-- Heap-model SameValueZero (`includes`): like `===` with `NaN` matching
itself. -/
def hSameValueZero : HVal → HVal → Bool
  | .nan, .nan => true
  | a, b => hStrictEq a b

/-- Element list of a value that is a reference to an array cell. -/
def hArrElems (h : Heap) (v : HVal) : Option (List HVal) :=
  match v with
  | .ref a =>
    (match h.get a with
     | some (.arrCell elems) => some elems
     | _ => none)
  | _ => none

/-- Heap-model property read `base[key]`. -/
def hGetProp (h : Heap) (base : HVal) (key : String) : HVal :=
  match base with
  | .ref a =>
    (match h.get a with
     | some (.objCell fields) => (fields.lookup key).getD .undef
     | some (.arrCell elems) =>
       if key = "length" then .num elems.length
       else
         (match canonicalIndex key with
          | some i => elems.getD i .undef
          | none => .undef)
     | none => .undef)
  | .str s =>
    if key = "length" then .num s.length
    else
      (match canonicalIndex key with
       | some i =>
         (match s.data.get? i with
          | some c => .str (String.singleton c)
          | none => .undef)
       | none => .undef)
  | _ => (.undef)

/-- Heap-model `getNestedProperty` walk. -/
def hWalkGet (h : Heap) : List String → HVal → HVal
  | [], current => current
  | part :: parts, current =>
    match current with
    | .null => .undef
    | .undef => .undef
    | current => hWalkGet h parts (hGetProp h current part)

/-- Heap-model `getNestedProperty(obj, path)`. -/
def hGetNested (h : Heap) (root : HVal) (path : String) : HVal :=
  hWalkGet h (splitPath path) root

/-- Heap-model membership `key in base`: throws on a primitive base. -/
def hHasOwn (h : Heap) (base : HVal) (key : String) : JsRes Bool :=
  match base with
  | .ref a =>
    (match h.get a with
     | some (.objCell fields) => .ok (fields.lookup key).isSome
     | some (.arrCell elems) =>
       .ok (key = "length" ||
         (match canonicalIndex key with
          | some i => i < elems.length
          | none => false))
     | none => .ok false)
  | _ => .thrown "TypeError"

/-- Heap-model assignment `base[key] := v`: mutates the referenced cell in
place. -/
def hSetOwn (h : Heap) (base : HVal) (key : String) (v : HVal) : JsRes Heap :=
  match base with
  | .ref a =>
    (match h.get a with
     | some (.objCell fields) =>
       if (fields.lookup key).isSome then
         .ok (h.setCell a (.objCell (fields.map (fun p => if p.1 = key then (p.1, v) else p))))
       else
         .ok (h.setCell a (.objCell (fields ++ [(key, v)])))
     | some (.arrCell elems) =>
       (match canonicalIndex key with
        | some i =>
          if i < elems.length then .ok (h.setCell a (.arrCell (elems.set i v)))
          else if i = elems.length then .ok (h.setCell a (.arrCell (elems ++ [v])))
          else .thrown "UnmodelledSparseArray"
        | none => .thrown "UnmodelledArrayProperty")
     | none => .thrown "DanglingRef")
  | _ => .thrown "TypeError"

/-- Heap-model `delete base[key]`: mutates the referenced cell; a no-op on
primitives and missing keys. -/
def hDeleteOwn (h : Heap) (base : HVal) (key : String) : Heap :=
  match base with
  | .ref a =>
    (match h.get a with
     | some (.objCell fields) =>
       h.setCell a (.objCell (fields.filter (fun p => !(p.1 = key : Bool))))
     | some (.arrCell elems) =>
       (match canonicalIndex key with
        | some i => h.setCell a (.arrCell (elems.set i .undef))
        | none => h)
     | none => h)
  | _ => h

/-- Heap-model `setNestedProperty` walk: a missing intermediate segment
allocates a fresh empty object into the current container
(`current[part] = {}`); the final segment is assigned in place. -/
def hWalkSet (h : Heap) : List String → HVal → HVal → JsRes Heap
  | [], _, _ => .ok h
  | [last], current, v => hSetOwn h current last v
  | part :: parts, current, v => do
    let present ← hHasOwn h current part
    if present then hWalkSet h parts (hGetProp h current part) v
    else do
      let (na, h1) := h.alloc (.objCell [])
      let h2 ← hSetOwn h1 current part (.ref na)
      hWalkSet h2 parts (.ref na) v

/-- Heap-model `setNestedProperty(obj, path, value)`. -/
def hSetNested (h : Heap) (root : HVal) (path : String) (v : HVal) : JsRes Heap :=
  hWalkSet h (splitPath path) root v

/-- Heap-model `deleteNestedProperty` walk. -/
def hWalkDelete (h : Heap) : List String → HVal → JsRes Heap
  | [], _ => .ok h
  | [last], current => .ok (hDeleteOwn h current last)
  | part :: parts, current => do
    let present ← hHasOwn h current part
    if present then hWalkDelete h parts (hGetProp h current part)
    else .ok h

/-- Heap-model `deleteNestedProperty(obj, path)`. -/
def hDeleteNested (h : Heap) (root : HVal) (path : String) : JsRes Heap :=
  hWalkDelete h (splitPath path) root

/-- Heap-model ToNumber: composite coercion is not modelled (`NaN`), as in
the value model. -/
def hToNumber : HVal → Option Int
  | .undef => none
  | .null => some 0
  | .bool b => some (if b then 1 else 0)
  | .num n => some n
  | .nan => none
  | .str s =>
    (match (s.data.dropWhile isWsChar).reverse.dropWhile isWsChar |>.reverse with
     | [] => some 0
     | cs => parseIntStr cs)
  | .ref _ => none

/-- Heap-model string form of a primitive (composite coercion not
modelled). -/
def hToStringShallow : HVal → String
  | .undef => "undefined"
  | .null => "null"
  | .bool b => if b then "true" else "false"
  | .num n => toString n
  | .nan => "NaN"
  | .str s => s
  | .ref _ => ""

/-- Heap-model addition `a + b`. -/
def hPlus (a b : HVal) : HVal :=
  match a, b with
  | .str s₁, _ => .str (s₁ ++ hToStringShallow b)
  | _, .str s₂ => .str (hToStringShallow a ++ s₂)
  | _, _ =>
    match hToNumber a, hToNumber b with
    | some n₁, some n₂ => .num (n₁ + n₂)
    | _, _ => .nan

/-- Sequencing helper for reading a list of heap values back. -/
def hToValList (f : HVal → JsRes JsVal) : List HVal → JsRes (List JsVal)
  | [] => .ok []
  | x :: xs => do
    let v ← f x
    let rest ← hToValList f xs
    pure (v :: rest)

/-- Sequencing helper for reading a field list back. -/
def hToValFields (f : HVal → JsRes JsVal) :
    List (String × HVal) → JsRes (List (String × JsVal))
  | [] => .ok []
  | (k, x) :: xs => do
    let v ← f x
    let rest ← hToValFields f xs
    pure ((k, v) :: rest)

/-- Readback of a heap value as a pure `JsVal` (what an observer of the
document sees); `fuel` bounds the reference depth followed. -/
def hToVal : Nat → Heap → HVal → JsRes JsVal
  | 0, _, _ => .diverge
  | fuel + 1, h, v =>
    match v with
    | .undef => .ok .undef
    | .null => .ok .null
    | .bool b => .ok (.bool b)
    | .num n => .ok (.num n)
    | .nan => .ok .nan
    | .str s => .ok (.str s)
    | .ref a =>
      match h.get a with
      | some (.objCell fields) => do
        let fs ← hToValFields (hToVal fuel h) fields
        pure (.obj fs)
      | some (.arrCell elems) => do
        let es ← hToValList (hToVal fuel h) elems
        pure (.arr es)
      | none => .thrown "DanglingRef"

/-- The `$pull` element test in the heap model: both the element and the
operand are read back and handed to the value-level Predicate Evaluator.
(Reference identity inside the test is thereby modelled as structural
equality; this can only affect which elements `$pull` removes, never whether
and where the heap is written.) -/
def hMatchItem (fuel : Nat) (h : Heap) (item operand : HVal) : JsRes Bool := do
  let iv ← hToVal fuel h item
  let ov ← hToVal fuel h operand
  matchesQuery fuel (.obj [("item", iv)]) (.obj [("item", ov)])

/-- Heap-model `$set` loop. -/
def hSetLoop (h : Heap) (result : HVal) : List (String × HVal) → JsRes Heap
  | [] => .ok h
  | (field, value) :: rest => do
    let h2 ← hSetNested h result field value
    hSetLoop h2 result rest

/-- Heap-model `$unset` loop. -/
def hUnsetLoop (h : Heap) (result : HVal) : List (String × HVal) → JsRes Heap
  | [] => .ok h
  | (field, _) :: rest => do
    let h2 ← hDeleteNested h result field
    hUnsetLoop h2 result rest

/-- Heap-model `$inc` loop. -/
def hIncLoop (h : Heap) (result : HVal) : List (String × HVal) → JsRes Heap
  | [] => .ok h
  | (field, value) :: rest => do
    let currentValue := hGetNested h result field
    let base := if hTruthy currentValue then currentValue else .num 0
    let h2 ← hSetNested h result field (hPlus base value)
    hIncLoop h2 result rest

/-- Allocation of a fresh array cell followed by storing its reference at
the field (the common tail of the array update operators, which always
REPLACE the field with a newly built array and never mutate the previous
one). -/
def hSetArrField (h : Heap) (result : HVal) (field : String) (elems : List HVal) :
    JsRes Heap :=
  let (na, h2) := h.alloc (.arrCell elems)
  hSetNested h2 result field (.ref na)

/-- Heap-model `$push` loop: the falsy default `|| []` allocates a fresh
empty array; the pushed result `[...currentValue, value]` is likewise a
fresh array. -/
def hPushLoop (h : Heap) (result : HVal) : List (String × HVal) → JsRes Heap
  | [] => .ok h
  | (field, value) :: rest =>
    let currentValue := hGetNested h result field
    let (base, h1) :=
      if hTruthy currentValue then (currentValue, h)
      else
        let (na, h1) := h.alloc (.arrCell [])
        (.ref na, h1)
    match hArrElems h1 base with
    | some elems => do
      let h3 ← hSetArrField h1 result field (elems ++ [value])
      hPushLoop h3 result rest
    | none => .thrown ("Cannot apply $push to non-array field: " ++ field)

/-- Heap-model `$pull` element filter (keep the non-matching elements). -/
def hPullFilter (fuel : Nat) (h : Heap) (operand : HVal) :
    List HVal → JsRes (List HVal)
  | [] => .ok []
  | x :: xs => do
    let b ← hMatchItem fuel h x operand
    let rest ← hPullFilter fuel h operand xs
    pure (if b then rest else x :: rest)

/-- Heap-model `$pull` loop. -/
def hPullLoop (fuel : Nat) (h : Heap) (result : HVal) :
    List (String × HVal) → JsRes Heap
  | [] => .ok h
  | (field, value) :: rest =>
    match hArrElems h (hGetNested h result field) with
    | some elems => do
      let kept ← hPullFilter fuel h value elems
      let h3 ← hSetArrField h result field kept
      hPullLoop fuel h3 result rest
    | none => .thrown ("Cannot apply $pull to non-array field: " ++ field)

/-- Heap-model `$addToSet` loop. -/
def hAddToSetLoop (h : Heap) (result : HVal) : List (String × HVal) → JsRes Heap
  | [] => .ok h
  | (field, value) :: rest =>
    let currentValue := hGetNested h result field
    let (base, h1) :=
      if hTruthy currentValue then (currentValue, h)
      else
        let (na, h1) := h.alloc (.arrCell [])
        (.ref na, h1)
    match hArrElems h1 base with
    | some elems =>
      if elems.any (fun x => hSameValueZero x value) then
        hAddToSetLoop h1 result rest
      else do
        let h3 ← hSetArrField h1 result field (elems ++ [value])
        hAddToSetLoop h3 result rest
    | none => .thrown ("Cannot apply $addToSet to non-array field: " ++ field)

/-- Heap-model `$pop` loop. -/
def hPopLoop (h : Heap) (result : HVal) : List (String × HVal) → JsRes Heap
  | [] => .ok h
  | (field, value) :: rest =>
    match hArrElems h (hGetNested h result field) with
    | some elems =>
      if hStrictEq value (.num 1) then do
        let h3 ← hSetArrField h result field elems.dropLast
        hPopLoop h3 result rest
      else if hStrictEq value (.num (-1)) then do
        let h3 ← hSetArrField h result field (elems.drop 1)
        hPopLoop h3 result rest
      else hPopLoop h result rest
    | none => .thrown ("Cannot apply $pop to non-array field: " ++ field)

/-- Heap-model dispatch of one update operator. -/
def opApplyH (fuel : Nat) (operator : String) (fields : List (String × HVal))
    (h : Heap) (result : HVal) : JsRes Heap :=
  match operator with
  | "$set" => hSetLoop h result fields
  | "$unset" => hUnsetLoop h result fields
  | "$inc" => hIncLoop h result fields
  | "$push" => hPushLoop h result fields
  | "$pull" => hPullLoop fuel h result fields
  | "$addToSet" => hAddToSetLoop h result fields
  | "$pop" => hPopLoop h result fields
  | _ => .ok h

/-- Heap-model loop over the update's operator entries. -/
def opsLoopH (fuel : Nat) : List (String × List (String × HVal)) → Heap → HVal → JsRes Heap
  | [], h, _ => .ok h
  | (operator, fields) :: rest, h, result => do
    let h2 ← opApplyH fuel operator fields h result
    opsLoopH fuel rest h2 result

/-- Cell contents of the shallow copy `{ ...document }`: an object's own
field list (nested references shared with the input), an array or string
spread as indexed fields, any other primitive an empty object. -/
def applyContents (h : Heap) (document : HVal) : HObj :=
  match document with
  | .ref a =>
    (match h.get a with
     | some (.objCell fields) => .objCell fields
     | some (.arrCell elems) =>
       .objCell (elems.enum.map (fun p => (toString p.1, p.2)))
     | none => .objCell [])
  | .str s => .objCell (s.data.enum.map (fun p => (toString p.1, .str (String.singleton p.2))))
  | _ => .objCell []

/-- Heap-model `applyUpdate(document, update)`: allocate the shallow copy
`{ ...document }` — sharing every field value, hence every nested reference,
with the input — then apply each operator in enumeration order to the copy.
The update object and its per-operator field mappings are represented by
their entry lists.  Returns the final heap and the reference to the new
document. -/
def applyUpdateH (fuel : Nat) (h : Heap) (document : HVal)
    (update : List (String × List (String × HVal))) : JsRes (Heap × HVal) :=
  let (r, h1) := h.alloc (applyContents h document)
  (opsLoopH fuel update h1 (.ref r)).bind (fun h2 => .ok (h2, .ref r))

/-! Basic computation lemmas about `JsRes`. -/

@[simp] theorem JsRes.bind_ok {α β : Type} (a : α) (f : α → JsRes β) :
    (JsRes.ok a >>= f) = f a := rfl

@[simp] theorem JsRes.bind_thrown {α β : Type} (e : String) (f : α → JsRes β) :
    ((JsRes.thrown e : JsRes α) >>= f) = JsRes.thrown e := rfl

@[simp] theorem JsRes.bind_diverge {α β : Type} (f : α → JsRes β) :
    ((JsRes.diverge : JsRes α) >>= f) = JsRes.diverge := rfl

@[simp] theorem JsRes.pure_eq_ok {α : Type} (a : α) :
    (pure a : JsRes α) = JsRes.ok a := rfl

/-- Claim C2 counterexample: against the empty document, the query
`{$and: []}` evaluates to TRUE, not false — the empty operand passes the
`Array.isArray` guard and `every` over an empty array is vacuously true. -/
theorem C2_counterexample :
    matchesQuery 1 (JsVal.obj []) (.obj [("$and", .arr [])]) = .ok true := rfl

/-- Claim C2 (amended): for every document and any positive recursion
budget, evaluating `{$and: []}` yields true (the empty sub-query sequence is
vacuously satisfied), not false. -/
theorem C2_theorem (fuel : Nat) (document : JsVal) :
    matchesQuery (fuel + 1) document (.obj [("$and", .arr [])]) = .ok true := rfl

/-- Claim C9: a zero `limit` and a zero `skip` are falsy, hence treated as
"modifier unset": the find cursor's `toArray` returns the whole match set. -/
theorem C9_theorem (fuel : Nat) (st : Store) (name : String) (query : JsVal)
    (ms : List JsVal) (h : findExecute fuel st name query = .ok ms) :
    findToArray fuel st name query (CursorImpl.limit newFindCursor 0)
        = .ok (ms, { documents := ms, lim := some 0 }, 1) ∧
      findToArray fuel st name query (CursorImpl.skip newFindCursor 0)
        = .ok (ms, { documents := ms, skp := some 0 }, 1) := by
  constructor <;>
    simp [findToArray, CursorImpl.limit, CursorImpl.skip, newFindCursor, h,
      CursorImpl.toArray]

/-- Claim C9 witness: a concrete two-document store on which the zero-valued
modifiers return the full match set. -/
theorem C9_witness :
    findExecute 1 [⟨"1", "t", .obj [("v", .num 1)]⟩, ⟨"2", "t", .obj [("v", .num 2)]⟩]
        "t" (.obj []) = .ok [.obj [("v", .num 1)], .obj [("v", .num 2)]] ∧
      findToArray 1 [⟨"1", "t", .obj [("v", .num 1)]⟩, ⟨"2", "t", .obj [("v", .num 2)]⟩]
        "t" (.obj []) (CursorImpl.limit newFindCursor 0)
        = .ok ([.obj [("v", .num 1)], .obj [("v", .num 2)]],
            { documents := [.obj [("v", .num 1)], .obj [("v", .num 2)]], lim := some 0 }, 1) :=
  ⟨rfl,
    (C9_theorem 1 [⟨"1", "t", .obj [("v", .num 1)]⟩, ⟨"2", "t", .obj [("v", .num 2)]⟩]
      "t" (.obj []) [.obj [("v", .num 1)], .obj [("v", .num 2)]] rfl).1⟩

/-- Resolved-to-`undefined` field values satisfy `$ne` against any defined
operand, since `undefined !== v` holds exactly when `v` is not
`undefined`. -/
theorem jsStrictEq_undef_left (v : JsVal) (hv : isUndef v = false) :
    jsStrictEq .undef v = false := by
  cases v <;> simp_all [jsStrictEq, isUndef]

/-- Claim C10: a document whose resolved value at the queried path is
`undefined` (absent field or a null/undefined intermediate) matches
`{f: {$ne: v}}` for every defined operand `v`. -/
theorem C10_theorem (fuel : Nat) (document : JsVal) (f : String) (v : JsVal)
    (hres : getNestedProperty document f = .undef)
    (hdef : isUndef v = false)
    (hfield : startsWithDollar f = false) :
    matchesQuery (fuel + 1) document (.obj [(f, .obj [("$ne", v)])]) = .ok true := by
  simp [matchesQuery, entriesOf, entryLoop, hfield, hres, opLoop, matchesOperator,
    objEntries, jsStrictEq_undef_left v hdef]

/-- Claim C10 witness: the empty document and the operand `5`. -/
theorem C10_witness :
    getNestedProperty (JsVal.obj []) "f" = .undef ∧
      matchesQuery 1 (JsVal.obj []) (.obj [("f", .obj [("$ne", .num 5)])]) = .ok true :=
  ⟨rfl, C10_theorem 0 (JsVal.obj []) "f" (.num 5) rfl rfl rfl⟩

/-- Claim C1 counterexample: a collection in which exactly N = 1 document
matches the query, and a find cursor with skip and limit set on which no
terminal `toArray` has run: `count()` reports 0, not 1 — `count` is not
patched by `find` and never triggers the fetch, and the fetched set of a
fresh cursor is empty. -/
theorem C1_counterexample :
    findExecute 1 [⟨"1", "t", .obj [("a", .num 1)]⟩] "t" (.obj [])
        = .ok [.obj [("a", .num 1)]] ∧
      CursorImpl.count (CursorImpl.limit (CursorImpl.skip newFindCursor 0) 0) = 0 :=
  ⟨rfl, rfl⟩

/-- Claim C1 (amended): on a find cursor with any skip `k` and limit `m`
set, `count()` returns 0 before a terminal `toArray`/`first` call has run;
once such a call has fetched the match set, `count()` returns the total
number N of matching documents, unaffected by the pagination modifiers. -/
theorem C1_theorem (fuel : Nat) (st : Store) (name : String) (query : JsVal)
    (ms : List JsVal) (k m : Int)
    (h : findExecute fuel st name query = .ok ms) :
    CursorImpl.count (CursorImpl.limit (CursorImpl.skip newFindCursor k) m) = 0 ∧
      findToArray fuel st name query (CursorImpl.limit (CursorImpl.skip newFindCursor k) m)
        = .ok (CursorImpl.toArray { documents := ms, skp := some k, lim := some m },
            { documents := ms, skp := some k, lim := some m }, 1) ∧
      CursorImpl.count { documents := ms, skp := some k, lim := some m } = ms.length := by
  refine ⟨rfl, ?_, rfl⟩
  simp [findToArray, CursorImpl.limit, CursorImpl.skip, newFindCursor, h]

/-- Claim C1 witness: two matching documents, skip 1 and limit 1 — after the
fetch, `count` is 2 while `toArray` pages down to one document. -/
theorem C1_witness :
    findExecute 1 [⟨"1", "t", .obj [("a", .num 1)]⟩, ⟨"2", "t", .obj [("a", .num 2)]⟩]
        "t" (.obj []) = .ok [.obj [("a", .num 1)], .obj [("a", .num 2)]] ∧
      CursorImpl.count
          { documents := [.obj [("a", .num 1)], .obj [("a", .num 2)]],
            skp := some 1, lim := some 1 } = 2 :=
  ⟨rfl,
    (C1_theorem 1 [⟨"1", "t", .obj [("a", .num 1)]⟩, ⟨"2", "t", .obj [("a", .num 2)]⟩]
      "t" (.obj []) [.obj [("a", .num 1)], .obj [("a", .num 2)]] 1 1 rfl).2.2⟩

/-- Claim C3: the fetch is NOT memoized.  The cache check of the patched
`toArray` reads the `_documents` slot, which no code path ever assigns (the
fetch is stored into `documents`), so the check passes on every call: here
two consecutive `toArray` calls on the same cursor over the same one-document
collection each perform a storage scan (third component 1 in both results),
contradicting the fetch-at-most-once contract. -/
theorem C3_theorem :
    findToArray 1 [⟨"1", "t", .obj [("a", .num 1)]⟩] "t" (.obj []) newFindCursor
        = .ok ([.obj [("a", .num 1)]], { documents := [.obj [("a", .num 1)]] }, 1) ∧
      findToArray 1 [⟨"1", "t", .obj [("a", .num 1)]⟩] "t" (.obj [])
          { documents := [.obj [("a", .num 1)]] }
        = .ok ([.obj [("a", .num 1)]], { documents := [.obj [("a", .num 1)]] }, 1) :=
  ⟨rfl, rfl⟩

/-- Claim C6 counterexample: a PRESENT non-sequence value that is falsy — the
number 0 at field `f` — does not make `$push` fail with an InvalidFieldType
error as claimed; the `|| []` default treats every falsy current value as
absent and the push succeeds, producing `{f: [7]}`. -/
theorem C6_counterexample :
    applyUpdate 1 (.obj [("f", .num 0)]) (.obj [("$push", .obj [("f", .num 7)])])
      = .ok (.obj [("f", .arr [.num 7])]) := rfl

/-- Lookup after an in-place replacement of the value at a present key. -/
theorem lookup_map_replace {β : Type} (fields : List (String × β)) (f : String) (v : β)
    (h : (fields.lookup f).isSome) :
    (fields.map (fun p => if p.1 = f then (p.1, v) else p)).lookup f = some v := by
  induction fields with
  | nil => simp [List.lookup] at h
  | cons kw rest ih =>
    obtain ⟨k, w⟩ := kw
    by_cases hp : k = f
    · subst hp
      have hrw : (if (k, w).1 = k then ((k, w).1, v) else (k, w)) = (k, v) := if_pos rfl
      rw [List.map_cons, hrw]
      simp [List.lookup]
    · have hf : (f == k) = false := beq_eq_false_iff_ne.mpr (Ne.symm hp)
      simp only [List.map_cons] at *
      rw [show (if (k, w).1 = f then ((k, w).1, v) else (k, w)) = (k, w) from by simp [hp]]
      simp only [List.lookup, hf] at h ⊢
      exact ih h

/-- Lookup after appending a binding for an absent key. -/
theorem lookup_append_single {β : Type} (fields : List (String × β)) (f : String) (v : β)
    (h : fields.lookup f = none) :
    (fields ++ [(f, v)]).lookup f = some v := by
  induction fields with
  | nil => simp [List.lookup]
  | cons kw rest ih =>
    obtain ⟨k, w⟩ := kw
    by_cases hp : k = f
    · subst hp
      simp [List.lookup] at h
    · have hf : (f == k) = false := beq_eq_false_iff_ne.mpr (Ne.symm hp)
      simp only [List.cons_append, List.lookup, hf] at h ⊢
      exact ih h

/-- Effect of the single-segment assignment `setOwn` on an object: the
result is an object whose lookup at the key yields the assigned value. -/
theorem setOwn_obj (fields : List (String × JsVal)) (f : String) (v : JsVal) :
    ∃ ofields, setOwn (.obj fields) f v = .ok (.obj ofields) ∧
      ofields.lookup f = some v := by
  by_cases h : (fields.lookup f).isSome
  · exact ⟨fields.map (fun p => if p.1 = f then (p.1, v) else p),
      by simp [setOwn, h], lookup_map_replace fields f v h⟩
  · exact ⟨fields ++ [(f, v)], by simp [setOwn, h],
      lookup_append_single fields f v (Option.not_isSome_iff_eq_none.mp h)⟩

/-- Claim C6 (amended): on an object document and a dot-free field name,
`$push` treats every FALSY current value — absence, but also present falsy
non-sequences such as `0` — as the empty sequence and succeeds with `[v]` at
the field; `$push` fails with the InvalidFieldType error only for a truthy
present non-sequence; `$pull` fails with the InvalidFieldType error for
every non-sequence current value, absent ones included (the asymmetry on
absent fields is as claimed). -/
theorem C6_theorem (fuel : Nat) (fields : List (String × JsVal)) (f : String) (v : JsVal)
    (hseg : splitPath f = [f]) :
    (truthy (getNestedProperty (.obj fields) f) = false →
      ∃ o, applyUpdate fuel (.obj fields) (.obj [("$push", .obj [(f, v)])]) = .ok o ∧
        getNestedProperty o f = .arr [v]) ∧
    (isArray (getNestedProperty (.obj fields) f) = false →
      applyUpdate fuel (.obj fields) (.obj [("$pull", .obj [(f, v)])])
        = .thrown ("Cannot apply $pull to non-array field: " ++ f)) ∧
    (truthy (getNestedProperty (.obj fields) f) = true →
      isArray (getNestedProperty (.obj fields) f) = false →
      applyUpdate fuel (.obj fields) (.obj [("$push", .obj [(f, v)])])
        = .thrown ("Cannot apply $push to non-array field: " ++ f)) := by
  refine ⟨?_, ?_, ?_⟩
  · intro hfalsy
    obtain ⟨ofields, ho, hl⟩ := setOwn_obj fields f (.arr [v])
    refine ⟨.obj ofields, ?_, ?_⟩
    · simp [applyUpdate, entriesOf, opsLoop, opApply, pushLoop, shallowCopy, hfalsy,
        setNestedProperty, hseg, walkSet, ho]
    · simp [getNestedProperty, hseg, walkGet, jsIndex, hl]
  · intro hnarr
    cases hv : getNestedProperty (.obj fields) f with
    | arr elems => rw [hv] at hnarr; simp [isArray] at hnarr
    | _ =>
      simp_all [applyUpdate, entriesOf, opsLoop, opApply, pullLoop, shallowCopy]
  · intro htr hnarr
    cases hv : getNestedProperty (.obj fields) f with
    | arr elems => rw [hv] at hnarr; simp [isArray] at hnarr
    | _ =>
      simp_all [applyUpdate, entriesOf, opsLoop, opApply, pushLoop, shallowCopy, truthy]

/-- Claim C6 witness: on concrete documents, `$push` on the absent field `f`
succeeds with `[7]`, `$pull` on the absent field throws, and `$push` on the
present truthy non-sequence `"x"` throws. -/
theorem C6_witness :
    splitPath "f" = ["f"] ∧
      (∃ o, applyUpdate 1 (.obj []) (.obj [("$push", .obj [("f", .num 7)])]) = .ok o ∧
        getNestedProperty o "f" = .arr [.num 7]) ∧
      applyUpdate 1 (.obj []) (.obj [("$pull", .obj [("f", .num 7)])])
        = .thrown ("Cannot apply $pull to non-array field: " ++ "f") ∧
      applyUpdate 1 (.obj [("f", .str "x")]) (.obj [("$push", .obj [("f", .num 7)])])
        = .thrown ("Cannot apply $push to non-array field: " ++ "f") :=
  ⟨rfl, (C6_theorem 1 [] "f" (.num 7) rfl).1 rfl,
    (C6_theorem 1 [] "f" (.num 7) rfl).2.1 rfl,
    (C6_theorem 1 [("f", .str "x")] "f" (.num 7) rfl).2.2 rfl rfl⟩

/-- Claim C5 counterexample: a malformed `$regex` pattern operand — the
unterminated group `"("` — makes predicate evaluation throw a SyntaxError
from `new RegExp`, so evaluation is not total as claimed. -/
theorem C5_counterexample :
    matchesQuery 1 (.obj []) (.obj [("f", .obj [("$regex", .str "(")])])
      = .thrown "SyntaxError" := rfl

/-- Entry list of a non-null, non-undefined value (the payload of
`Object.entries` when it does not throw). -/
def entriesListOf : JsVal → List (String × JsVal)
  | .obj fields => fields
  | .arr elems => indexedEntries elems
  | .str s => s.data.enum.map (fun p => (toString p.1, .str (String.singleton p.2)))
  | _ => []

/-- Safety of one operator entry: total evaluation is guaranteed when no
`$regex` occurs (its pattern compilation is the throwing path) and, under
`$not`, the synthetic sub-query is safe in turn. -/
def safeOpP (recS : JsVal → Bool) (op : String) (opv : JsVal) : Bool :=
  match op with
  | "$regex" => false
  | "$not" => recS (.obj [("value", opv)])
  | _ => true

/-- Safety of a list of query entries: sub-queries under `$and`/`$or`/`$nor`
must be safe (in particular not null/undefined, on which `Object.entries`
throws), and field conditions must be built from safe operators.  Structural
failures that merely evaluate to false (non-array logical operands, unknown
operators) are safe. -/
def safeEntriesP (recS : JsVal → Bool) : List (String × JsVal) → Bool
  | [] => true
  | (key, value) :: rest =>
    (if startsWithDollar key then
      match key with
      | "$and" =>
        (match value with
         | .arr subs => subs.all recS
         | _ => true)
      | "$or" =>
        (match value with
         | .arr subs => subs.all recS
         | _ => true)
      | "$nor" =>
        (match value with
         | .arr subs => subs.all recS
         | _ => true)
      | _ => true
    else
      match value with
      | .obj _ => (objEntries value).all (fun p => safeOpP recS p.1 p.2)
      | .arr _ => (objEntries value).all (fun p => safeOpP recS p.1 p.2)
      | _ => true)
    && safeEntriesP recS rest

/-- Safety of a query at a given recursion budget, mirroring the budget
discipline of `matchesQuery` (at budget 0 the matcher diverges rather than
throws, so everything is safe there). -/
def safeQ : Nat → JsVal → Bool
  | 0, _ => true
  | fuel + 1, q =>
    match q with
    | .null => false
    | .undef => false
    | q => safeEntriesP (safeQ fuel) (entriesListOf q)

/-- The non-recursive operators never throw; `$not` throws only if the inner
matcher does, and `$regex` is excluded by operator safety. -/
theorem matchesOperator_no_throw (recQ : JsVal → JsVal → JsRes Bool)
    (recS : JsVal → Bool)
    (hrec : ∀ doc q, recS q = true → ∀ e, recQ doc q ≠ .thrown e)
    (v : JsVal) (op : String) (opv : JsVal)
    (hop : safeOpP recS op opv = true) :
    ∀ e, matchesOperator recQ v op opv ≠ .thrown e := by
  intro e
  unfold matchesOperator
  split <;> try simp
  · -- the `$not` arm
    simp only [safeOpP] at hop
    cases hq : recQ (.obj [("value", v)]) (.obj [("value", opv)]) with
    | ok b => simp [hq]
    | thrown e2 => exact absurd hq (hrec _ _ hop e2)
    | diverge => simp [hq]
  · -- the `$regex` arm
    simp only [safeOpP] at hop
    cases hop

/-- A sequential `every` over safe elements never throws. -/
theorem everyM_no_throw (f : JsVal → JsRes Bool) (P : JsVal → Bool)
    (hf : ∀ x, P x = true → ∀ e, f x ≠ .thrown e) :
    ∀ xs : List JsVal, xs.all P = true → ∀ e, everyM f xs ≠ .thrown e := by
  intro xs
  induction xs with
  | nil => intro _ e; simp [everyM]
  | cons x rest ih =>
    intro hall e
    simp only [List.all_cons, Bool.and_eq_true] at hall
    simp only [everyM]
    cases hx : f x with
    | ok b => cases b <;> simp [hx] <;> exact ih hall.2 e
    | thrown e2 => exact absurd hx (hf x hall.1 e2)
    | diverge => simp [hx]

/-- A sequential `some` over safe elements never throws. -/
theorem anyM_no_throw (f : JsVal → JsRes Bool) (P : JsVal → Bool)
    (hf : ∀ x, P x = true → ∀ e, f x ≠ .thrown e) :
    ∀ xs : List JsVal, xs.all P = true → ∀ e, anyM f xs ≠ .thrown e := by
  intro xs
  induction xs with
  | nil => intro _ e; simp [anyM]
  | cons x rest ih =>
    intro hall e
    simp only [List.all_cons, Bool.and_eq_true] at hall
    simp only [anyM]
    cases hx : f x with
    | ok b => cases b <;> simp [hx] <;> exact ih hall.2 e
    | thrown e2 => exact absurd hx (hf x hall.1 e2)
    | diverge => simp [hx]

/-- The operator loop over safe operator entries never throws. -/
theorem opLoop_no_throw (recQ : JsVal → JsVal → JsRes Bool) (recS : JsVal → Bool)
    (hrec : ∀ doc q, recS q = true → ∀ e, recQ doc q ≠ .thrown e)
    (dv : JsVal) :
    ∀ es : List (String × JsVal),
      es.all (fun p => safeOpP recS p.1 p.2) = true →
      ∀ e, opLoop recQ dv es ≠ .thrown e := by
  intro es
  induction es with
  | nil => intro _ e; simp [opLoop]
  | cons kv rest ih =>
    intro hall e
    obtain ⟨k, v⟩ := kv
    simp only [List.all_cons, Bool.and_eq_true] at hall
    simp only [opLoop]
    cases hmo : matchesOperator recQ dv k v with
    | ok b => cases b <;> simp [hmo] <;> exact ih hall.2 e
    | thrown e2 => exact absurd hmo (matchesOperator_no_throw recQ recS hrec dv k v hall.1 e2)
    | diverge => simp [hmo]

/-- The entry loop over a safe entry list never throws. -/
theorem entryLoop_no_throw (recQ : JsVal → JsVal → JsRes Bool) (recS : JsVal → Bool)
    (hrec : ∀ doc q, recS q = true → ∀ e, recQ doc q ≠ .thrown e)
    (document : JsVal) :
    ∀ es : List (String × JsVal),
      safeEntriesP recS es = true →
      ∀ e, entryLoop recQ document es ≠ .thrown e := by
  intro es
  induction es with
  | nil => intro _ e; simp [entryLoop]
  | cons kv rest ih =>
    intro hs e
    obtain ⟨key, value⟩ := kv
    simp only [safeEntriesP, Bool.and_eq_true] at hs
    obtain ⟨hb, hrest⟩ := hs
    simp only [entryLoop]
    by_cases hd : startsWithDollar key
    · rw [if_pos hd] at *
      split
      · -- `$and`
        split
        · rename_i subs
          have hb2 : subs.all recS = true := by simpa using hb
          cases hev : everyM (fun sub => recQ document sub) subs with
          | ok b =>
            cases b <;> simp [hev]
            exact ih hrest e
          | thrown e2 =>
            refine absurd hev (everyM_no_throw _ recS ?_ subs ?_ e2)
            · exact fun x hx e3 => hrec document x hx e3
            · exact hb2
          | diverge => simp [hev]
        · simp
      · -- `$or`
        split
        · rename_i subs
          have hb2 : subs.all recS = true := by simpa using hb
          cases hev : anyM (fun sub => recQ document sub) subs with
          | ok b =>
            cases b <;> simp [hev]
            exact ih hrest e
          | thrown e2 =>
            refine absurd hev (anyM_no_throw _ recS ?_ subs ?_ e2)
            · exact fun x hx e3 => hrec document x hx e3
            · exact hb2
          | diverge => simp [hev]
        · simp
      · -- `$nor`
        split
        · rename_i subs
          have hb2 : subs.all recS = true := by simpa using hb
          cases hev : anyM (fun sub => recQ document sub) subs with
          | ok b =>
            cases b <;> simp [hev]
            exact ih hrest e
          | thrown e2 =>
            refine absurd hev (anyM_no_throw _ recS ?_ subs ?_ e2)
            · exact fun x hx e3 => hrec document x hx e3
            · exact hb2
          | diverge => simp [hev]
        · simp
      · -- unknown `$` key
        simp
    · rw [if_neg hd] at *
      cases value with
      | obj fs =>
        simp only at hb
        cases hol : opLoop recQ (getNestedProperty document key) (objEntries (.obj fs)) with
        | ok b => cases b <;> simp [hol] <;> exact ih hrest e
        | thrown e2 => exact absurd hol (opLoop_no_throw recQ recS hrec _ _ hb e2)
        | diverge => simp [hol]
      | arr elems =>
        simp only at hb
        cases hol : opLoop recQ (getNestedProperty document key) (objEntries (.arr elems)) with
        | ok b => cases b <;> simp [hol] <;> exact ih hrest e
        | thrown e2 => exact absurd hol (opLoop_no_throw recQ recS hrec _ _ hb e2)
        | diverge => simp [hol]
      | undef => simp [matchesOperator]; split <;> try simp
                 exact fun h => absurd h.symm (by exact fun hh => ih hrest e hh.symm)
      | null => simp [matchesOperator]; split <;> try simp
                exact fun h => absurd h.symm (by exact fun hh => ih hrest e hh.symm)
      | bool b => simp [matchesOperator]; split <;> try simp
                  exact fun h => absurd h.symm (by exact fun hh => ih hrest e hh.symm)
      | num n => simp [matchesOperator]; split <;> try simp
                 exact fun h => absurd h.symm (by exact fun hh => ih hrest e hh.symm)
      | nan => simp [matchesOperator]; split <;> try simp
               exact fun h => absurd h.symm (by exact fun hh => ih hrest e hh.symm)
      | str s => simp [matchesOperator]; split <;> try simp
                 exact fun h => absurd h.symm (by exact fun hh => ih hrest e hh.symm)

/-- Queries safe at a budget never make the matcher throw at that budget. -/
theorem matchesQuery_no_throw :
    ∀ (fuel : Nat) (document q : JsVal), safeQ fuel q = true →
      ∀ e, matchesQuery fuel document q ≠ .thrown e := by
  intro fuel
  induction fuel with
  | zero => intro document q _ e; simp [matchesQuery]
  | succ fuel ih =>
    intro document q hq e
    cases q with
    | null => simp [safeQ] at hq
    | undef => simp [safeQ] at hq
    | bool b =>
      simp only [matchesQuery, entriesOf, JsRes.bind_ok]
      exact entryLoop_no_throw _ _ ih document _ (by simpa [safeQ, entriesListOf] using hq) e
    | num n =>
      simp only [matchesQuery, entriesOf, JsRes.bind_ok]
      exact entryLoop_no_throw _ _ ih document _ (by simpa [safeQ, entriesListOf] using hq) e
    | nan =>
      simp only [matchesQuery, entriesOf, JsRes.bind_ok]
      exact entryLoop_no_throw _ _ ih document _ (by simpa [safeQ, entriesListOf] using hq) e
    | str s =>
      simp only [matchesQuery, entriesOf, JsRes.bind_ok]
      exact entryLoop_no_throw _ _ ih document _ (by simpa [safeQ, entriesListOf] using hq) e
    | arr elems =>
      simp only [matchesQuery, entriesOf, JsRes.bind_ok]
      exact entryLoop_no_throw _ _ ih document _ (by simpa [safeQ, entriesListOf] using hq) e
    | obj fields =>
      simp only [matchesQuery, entriesOf, JsRes.bind_ok]
      exact entryLoop_no_throw _ _ ih document _ (by simpa [safeQ, entriesListOf] using hq) e

/-- Claim C5 (amended): predicate evaluation degrades structurally invalid
input to `false` without throwing — a non-array `$and`/`$or`/`$nor` operand
and an unknown operator (top-level or field-level) each yield `false` — and
evaluation of every query that is safe (contains no `$regex` operator and no
null/undefined sub-query under a logical operator) never throws; but (per
the counterexample) a malformed `$regex` pattern operand, and likewise a
null sub-query, does throw, so unconditional totality fails. -/
theorem C5_theorem (fuel : Nat) (document q v : JsVal) (e : String)
    (hq : safeQ fuel q = true) (hv : isArray v = false) :
    matchesQuery fuel document q ≠ .thrown e ∧
      matchesQuery (fuel + 1) document (.obj [("$and", v)]) = .ok false ∧
      matchesQuery (fuel + 1) document (.obj [("$or", v)]) = .ok false ∧
      matchesQuery (fuel + 1) document (.obj [("$nor", v)]) = .ok false ∧
      matchesOperator (matchesQuery fuel) document "$unknown" v = .ok false ∧
      matchesQuery (fuel + 1) document (.obj [("$unknown", v)]) = .ok false := by
  refine ⟨matchesQuery_no_throw fuel document q hq e, ?_, ?_, ?_, rfl, rfl⟩ <;>
    cases v <;> first
      | rfl
      | (exact absurd hv (by simp [isArray]))

/-- Claim C5 witness: a concrete safe query evaluated without a throw, and a
concrete non-array `$and` operand degrading to false. -/
theorem C5_witness :
    safeQ 1 (.obj [("a", .num 1)]) = true ∧
      isArray (.num 3) = false ∧
      (matchesQuery 1 (.obj []) (.obj [("a", .num 1)]) ≠ .thrown "X" ∧
        matchesQuery 2 (.obj []) (.obj [("$and", .num 3)]) = .ok false ∧
        matchesQuery 2 (.obj []) (.obj [("$or", .num 3)]) = .ok false ∧
        matchesQuery 2 (.obj []) (.obj [("$nor", .num 3)]) = .ok false ∧
        matchesOperator (matchesQuery 1) (.obj []) "$unknown" (.num 3) = .ok false ∧
        matchesQuery 2 (.obj []) (.obj [("$unknown", .num 3)]) = .ok false) :=
  ⟨rfl, rfl, C5_theorem 1 (.obj []) (.obj [("a", .num 1)]) (.num 3) "X" rfl rfl⟩

/-- Claim C8: `updateOne` returns `{matchedCount: 0, modifiedCount: 0}` and
leaves the table untouched when nothing matches; when `findOne` locates a
first matching document and the Mutation Applier succeeds, it overwrites
that document's record and returns `{1, 1}`; and every normal completion
has equal counts.  (`findOne` itself returns the head of the match set, per
the first conjunct.) -/
theorem C8_theorem (fuel : Nat) (st : Store) (name : String) (query update : JsVal) :
    (∀ ms, findExecute fuel st name query = .ok ms →
      findOne fuel st name query = .ok ms.head?) ∧
    (findOne fuel st name query = .ok none →
      updateOne fuel st name query update = .ok (0, 0, st)) ∧
    (∀ d d2, findOne fuel st name query = .ok (some d) →
      applyUpdate fuel d update = .ok d2 →
      updateOne fuel st name query update
        = .ok (1, 1, overwriteRecord st name (jsIndex d "_id") d2)) ∧
    (∀ mc mo st2, updateOne fuel st name query update = .ok (mc, mo, st2) → mc = mo) := by
  refine ⟨?_, ?_, ?_, ?_⟩
  · intro ms h
    simp [findOne, findFirst, findToArray, newFindCursor, h, CursorImpl.toArray]
  · intro h
    simp [updateOne, h]
  · intro d d2 h h2
    simp [updateOne, h, h2]
  · intro mc mo st2 h
    unfold updateOne at h
    cases h1 : findOne fuel st name query with
    | ok d? =>
      rw [h1] at h
      simp only [JsRes.bind_ok] at h
      cases d? with
      | none =>
        simp only [JsRes.pure_eq_ok, JsRes.ok.injEq, Prod.mk.injEq] at h
        omega
      | some d =>
        cases h2 : applyUpdate fuel d update with
        | ok d2 =>
          simp only [h2, JsRes.bind_ok, JsRes.pure_eq_ok, JsRes.ok.injEq, Prod.mk.injEq] at h
          omega
        | thrown e => simp [h2] at h
        | diverge => simp [h2] at h
    | thrown e => rw [h1] at h; simp at h
    | diverge => rw [h1] at h; simp at h

/-- Claim C8 witness: one stored document; a matching update increments its
value, overwrites its record, and reports `{1, 1}`. -/
theorem C8_witness :
    findOne 1 [⟨"1", "t", .obj [("_id", .str "1"), ("name", .str "A"), ("v", .num 10)]⟩]
        "t" (.obj [("name", .str "A")])
      = .ok (some (.obj [("_id", .str "1"), ("name", .str "A"), ("v", .num 10)])) ∧
    applyUpdate 1 (.obj [("_id", .str "1"), ("name", .str "A"), ("v", .num 10)])
        (.obj [("$inc", .obj [("v", .num 5)])])
      = .ok (.obj [("_id", .str "1"), ("name", .str "A"), ("v", .num 15)]) ∧
    updateOne 1 [⟨"1", "t", .obj [("_id", .str "1"), ("name", .str "A"), ("v", .num 10)]⟩]
        "t" (.obj [("name", .str "A")]) (.obj [("$inc", .obj [("v", .num 5)])])
      = .ok (1, 1,
          overwriteRecord
            [⟨"1", "t", .obj [("_id", .str "1"), ("name", .str "A"), ("v", .num 10)]⟩]
            "t"
            (jsIndex (.obj [("_id", .str "1"), ("name", .str "A"), ("v", .num 10)]) "_id")
            (.obj [("_id", .str "1"), ("name", .str "A"), ("v", .num 15)])) :=
  ⟨rfl, rfl,
    (C8_theorem 1 [⟨"1", "t", .obj [("_id", .str "1"), ("name", .str "A"), ("v", .num 10)]⟩]
        "t" (.obj [("name", .str "A")]) (.obj [("$inc", .obj [("v", .num 5)])])).2.2.1
      (.obj [("_id", .str "1"), ("name", .str "A"), ("v", .num 10)])
      (.obj [("_id", .str "1"), ("name", .str "A"), ("v", .num 15)]) rfl rfl⟩

/-- Comparison of two number values is the integer comparison. -/
theorem jsLt_num (a b : Int) : jsLt (.num a) (.num b) = decide (a < b) := rfl

/-- The greater-than of two number values is the flipped integer
comparison. -/
theorem jsGt_num (a b : Int) : jsGt (.num a) (.num b) = decide (b < a) := rfl

/-- Lexicographic character comparison is asymmetric. -/
theorem charListLt_asymm :
    ∀ {a b : List Char}, charListLt a b = true → charListLt b a = false := by
  intro a
  induction a with
  | nil =>
    intro b h
    cases b with
    | nil => simp [charListLt] at h
    | cons c cs => simp [charListLt]
  | cons x xs ih =>
    intro b h
    cases b with
    | nil => simp [charListLt] at h
    | cons y ys =>
      simp only [charListLt] at h ⊢
      by_cases hxy : x < y
      · rw [if_neg (lt_asymm hxy), if_pos hxy]
      · rw [if_neg hxy] at h
        by_cases hyx : y < x
        · rw [if_pos hyx] at h; cases h
        · rw [if_neg hyx] at h
          rw [if_neg hyx, if_neg hxy]
          exact ih h

/-- Asymmetry of the numeric branch of the relational comparison. -/
theorem jsLtNum_asymm {ta tb : Option Int}
    (h : (numLtRaw ta tb).getD false = true) :
    (numLtRaw tb ta).getD false = false := by
  rcases ta with _ | x <;> rcases tb with _ | y <;> simp_all [numLtRaw] <;> omega

/-- Asymmetry of the comparison on a pair of values taking the numeric
branch (the branching equations are discharged definitionally at each
constructor pair). -/
theorem jsLtNonStr_asymm (a b : JsVal)
    (e1 : jsLt a b = (numLtRaw (toNumber a) (toNumber b)).getD false)
    (e2 : jsLt b a = (numLtRaw (toNumber b) (toNumber a)).getD false)
    (h : jsLt a b = true) : jsLt b a = false := by
  rw [e1] at h
  rw [e2]
  exact jsLtNum_asymm h

/-- The abstract relational comparison is asymmetric. -/
theorem jsLt_asymm {a b : JsVal} (h : jsLt a b = true) : jsLt b a = false := by
  cases a <;> cases b <;>
    first
      | exact charListLt_asymm h
      | exact jsLtNonStr_asymm _ _ rfl rfl h

/-- The greater-than comparison is the flipped less-than. -/
theorem jsGt_eq (a b : JsVal) : jsGt a b = jsLt b a := rfl

/-- The multi-key comparator is antisymmetric: swapping the operands negates
the verdict. -/
theorem jsSortCmp_antisymm (spec : List (String × Int)) (a b : JsVal) :
    jsSortCmp spec b a = -(jsSortCmp spec a b) := by
  induction spec with
  | nil => simp [jsSortCmp]
  | cons kd rest ih =>
    obtain ⟨k, dir⟩ := kd
    by_cases h1 : jsLt (getNestedProperty a k) (getNestedProperty b k) = true
    · have h2 : jsLt (getNestedProperty b k) (getNestedProperty a k) = false := jsLt_asymm h1
      simp only [jsSortCmp, jsGt_eq, h1, h2]
      simp
    · have h1f : jsLt (getNestedProperty a k) (getNestedProperty b k) = false :=
        eq_false_of_ne_true h1
      by_cases h3 : jsLt (getNestedProperty b k) (getNestedProperty a k) = true
      · simp only [jsSortCmp, jsGt_eq, h1f, h3]
        simp
      · have h3f : jsLt (getNestedProperty b k) (getNestedProperty a k) = false :=
          eq_false_of_ne_true h3
        simp only [jsSortCmp, jsGt_eq, h1f, h3f]
        simp [ih]

/-- Resolved sort-key vector of a document, as integers (meaningful for
documents whose resolved values at every sort key are numbers). -/
def numKeyVals (spec : List (String × Int)) (d : JsVal) : List Int :=
  spec.map (fun p =>
    match getNestedProperty d p.1 with
    | .num n => n
    | _ => 0)

/-- The comparator on number-valued keys is the directed integer
comparison on the head key, falling through on ties. -/
theorem jsSortCmp_num_cons (k : String) (dir : Int) (rest : List (String × Int))
    (a b : JsVal) (na nb : Int)
    (ha : getNestedProperty a k = .num na) (hb : getNestedProperty b k = .num nb) :
    jsSortCmp ((k, dir) :: rest) a b =
      if na < nb then -1 * dir else if nb < na then 1 * dir else jsSortCmp rest a b := by
  simp only [jsSortCmp, ha, hb, jsGt_eq, jsLt_num]
  by_cases h1 : na < nb
  · simp [h1]
  · by_cases h2 : nb < na
    · simp [h1, h2]
    · simp [h1, h2]

/-- On documents whose sort keys all resolve to numbers, with directions
`1`/`-1`, the comparator's at-most relation is transitive. -/
theorem jsSortCmp_trans_num :
    ∀ (spec : List (String × Int)) (a b c : JsVal),
      (∀ p ∈ spec, p.2 = 1 ∨ p.2 = -1) →
      (∀ p ∈ spec, ∃ n : Int, getNestedProperty a p.1 = .num n) →
      (∀ p ∈ spec, ∃ n : Int, getNestedProperty b p.1 = .num n) →
      (∀ p ∈ spec, ∃ n : Int, getNestedProperty c p.1 = .num n) →
      jsSortCmp spec a b ≤ 0 → jsSortCmp spec b c ≤ 0 → jsSortCmp spec a c ≤ 0 := by
  intro spec
  induction spec with
  | nil => intro a b c _ _ _ _ _ _; simp [jsSortCmp]
  | cons kd rest ih =>
    intro a b c hdir ha hb hc h1 h2
    obtain ⟨k, dir⟩ := kd
    obtain ⟨na, hna⟩ := ha (k, dir) (List.mem_cons_self _ _)
    obtain ⟨nb, hnb⟩ := hb (k, dir) (List.mem_cons_self _ _)
    obtain ⟨nc, hnc⟩ := hc (k, dir) (List.mem_cons_self _ _)
    rw [jsSortCmp_num_cons k dir rest a b na nb hna hnb] at h1
    rw [jsSortCmp_num_cons k dir rest b c nb nc hnb hnc] at h2
    rw [jsSortCmp_num_cons k dir rest a c na nc hna hnc]
    have ihr := ih a b c
      (fun p hp => hdir p (List.mem_cons_of_mem _ hp))
      (fun p hp => ha p (List.mem_cons_of_mem _ hp))
      (fun p hp => hb p (List.mem_cons_of_mem _ hp))
      (fun p hp => hc p (List.mem_cons_of_mem _ hp))
    rcases hdir (k, dir) (List.mem_cons_self _ _) with hd | hd <;>
      (simp only at hd; subst hd) <;>
      split_ifs at h1 h2 ⊢ <;>
      first
        | omega
        | exact ihr h1 h2

/-- Equal resolved sort-key vectors give a comparator tie (on number-valued
keys). -/
theorem jsSortCmp_eq_zero_of_keyVals :
    ∀ (spec : List (String × Int)) (a b : JsVal),
      (∀ p ∈ spec, ∃ n : Int, getNestedProperty a p.1 = .num n) →
      (∀ p ∈ spec, ∃ n : Int, getNestedProperty b p.1 = .num n) →
      numKeyVals spec a = numKeyVals spec b → jsSortCmp spec a b = 0 := by
  intro spec
  induction spec with
  | nil => intro a b _ _ _; simp [jsSortCmp]
  | cons kd rest ih =>
    intro a b ha hb heq
    obtain ⟨k, dir⟩ := kd
    obtain ⟨na, hna⟩ := ha (k, dir) (List.mem_cons_self _ _)
    obtain ⟨nb, hnb⟩ := hb (k, dir) (List.mem_cons_self _ _)
    simp only [numKeyVals, List.map_cons, hna, hnb, List.cons.injEq] at heq
    rw [jsSortCmp_num_cons k dir rest a b na nb hna hnb]
    rw [if_neg (by omega), if_neg (by omega)]
    exact ih a b
      (fun p hp => ha p (List.mem_cons_of_mem _ hp))
      (fun p hp => hb p (List.mem_cons_of_mem _ hp))
      (by simpa [numKeyVals] using heq.2)

/-- Inserting into a sorted list preserves sortedness, with totality and
transitivity assumed only for the values involved. -/
theorem pairwise_orderedInsert {α : Type} {r : α → α → Prop} [DecidableRel r] (x : α) :
    ∀ l : List α,
      (∀ b ∈ l, ¬ r x b → r b x) →
      (∀ b ∈ l, ∀ z ∈ l, r x b → r b z → r x z) →
      List.Pairwise r l → List.Pairwise r (List.orderedInsert r x l) := by
  intro l
  induction l with
  | nil => intro _ _ _; simp
  | cons b t ih =>
    intro htot htr hl
    have hl' := List.pairwise_cons.mp hl
    by_cases hxb : r x b
    · rw [List.orderedInsert, if_pos hxb]
      constructor
      · intro y hy
        rcases List.mem_cons.mp hy with rfl | hyt
        · exact hxb
        · exact htr b (List.mem_cons_self _ _) y (List.mem_cons_of_mem _ hyt) hxb
            (hl'.1 y hyt)
      · exact hl
    · rw [List.orderedInsert, if_neg hxb]
      constructor
      · intro y hy
        rcases (List.mem_orderedInsert r).mp hy with rfl | hyt
        · exact htot b (List.mem_cons_self _ _) hxb
        · exact hl'.1 y hyt
      · exact ih
          (fun bb hbb => htot bb (List.mem_cons_of_mem _ hbb))
          (fun bb hbb z hz => htr bb (List.mem_cons_of_mem _ hbb) z (List.mem_cons_of_mem _ hz))
          hl'.2

/-- Insertion sort produces a sorted list, with totality and transitivity
assumed only among the list's elements. -/
theorem pairwise_insertionSort_local {α : Type} {r : α → α → Prop} [DecidableRel r] :
    ∀ l : List α,
      (∀ a ∈ l, ∀ b ∈ l, ¬ r a b → r b a) →
      (∀ a ∈ l, ∀ b ∈ l, ∀ c ∈ l, r a b → r b c → r a c) →
      List.Pairwise r (List.insertionSort r l) := by
  intro l
  induction l with
  | nil => intro _ _; simp
  | cons x t ih =>
    intro htot htr
    simp only [List.insertionSort]
    apply pairwise_orderedInsert
    · intro b hb hnr
      have hb' : b ∈ t := (List.mem_insertionSort r).mp hb
      exact htot x (List.mem_cons_self _ _) b (List.mem_cons_of_mem _ hb') hnr
    · intro b hb z hz hxb hbz
      have hb' : b ∈ t := (List.mem_insertionSort r).mp hb
      have hz' : z ∈ t := (List.mem_insertionSort r).mp hz
      exact htr x (List.mem_cons_self _ _) b (List.mem_cons_of_mem _ hb')
        z (List.mem_cons_of_mem _ hz') hxb hbz
    · exact ih
        (fun a ha b hb => htot a (List.mem_cons_of_mem _ ha) b (List.mem_cons_of_mem _ hb))
        (fun a ha b hb c hc => htr a (List.mem_cons_of_mem _ ha) b (List.mem_cons_of_mem _ hb)
          c (List.mem_cons_of_mem _ hc))

/-- A filtered sublist is pairwise related when the predicate's holders are
pairwise related. -/
theorem pairwise_filter_of {α : Type} {r : α → α → Prop} (p : α → Bool) :
    ∀ l : List α, (∀ a ∈ l, ∀ b ∈ l, p a = true → p b = true → r a b) →
      List.Pairwise r (l.filter p) := by
  intro l
  induction l with
  | nil => intro _; simp
  | cons x t ih =>
    intro hp
    by_cases hx : p x = true
    · rw [List.filter_cons_of_pos hx]
      constructor
      · intro b hb
        have hb' := List.mem_filter.mp hb
        exact hp x (List.mem_cons_self _ _) b (List.mem_cons_of_mem _ hb'.1) hx hb'.2
      · exact ih (fun a ha b hb => hp a (List.mem_cons_of_mem _ ha) b (List.mem_cons_of_mem _ hb))
    · rw [List.filter_cons_of_neg (by simpa using hx)]
      exact ih (fun a ha b hb => hp a (List.mem_cons_of_mem _ ha) b (List.mem_cons_of_mem _ hb))

/-- Stability of insertion sort through the lens of a predicate whose
holders are pairwise related (in particular, an equivalence class of the
sort keys): the filtered subsequence is unchanged by sorting. -/
theorem filter_insertionSort_stable {α : Type} {r : α → α → Prop} [DecidableRel r]
    (p : α → Bool) (l : List α)
    (hp : ∀ a ∈ l, ∀ b ∈ l, p a = true → p b = true → r a b) :
    (List.insertionSort r l).filter p = l.filter p := by
  have hc : List.Pairwise r (l.filter p) := pairwise_filter_of p l hp
  have hsub : List.Sublist (l.filter p) (List.insertionSort r l) :=
    List.sublist_insertionSort hc (List.filter_sublist l)
  have hsub2 : List.Sublist ((l.filter p).filter p) ((List.insertionSort r l).filter p) :=
    hsub.filter p
  have heq : (l.filter p).filter p = l.filter p := by
    simp [List.filter_filter]
  rw [heq] at hsub2
  have hperm : List.Perm ((List.insertionSort r l).filter p) (l.filter p) :=
    (List.perm_insertionSort r l).filter p
  exact (hsub2.eq_of_length (by rw [hperm.length_eq])).symm

/-- Claim C7: over documents whose resolved values at every sort key are
numbers (the setting in which an ascending/descending ordered comparison of
resolved values is meaningful) and directions `1`/`-1`, `toArray` after
`sort` returns a permutation of the fetched match set that is pairwise
ordered by the multi-key comparator — the first strictly-comparing key
decides, ascending for direction 1 and descending for -1 — and the sort is
stable: the subsequence of documents having any given resolved key vector is
exactly their subsequence in the fetched order. -/
theorem C7_theorem (docs : List JsVal) (spec : List (String × Int)) (kv : List Int)
    (hdir : ∀ p ∈ spec, p.2 = 1 ∨ p.2 = -1)
    (hnum : ∀ d ∈ docs, ∀ p ∈ spec, ∃ n : Int, getNestedProperty d p.1 = .num n) :
    List.Perm (CursorImpl.toArray { documents := docs, srt := some spec }) docs ∧
      List.Pairwise (fun a b => jsSortCmp spec a b ≤ 0)
        (CursorImpl.toArray { documents := docs, srt := some spec }) ∧
      (CursorImpl.toArray { documents := docs, srt := some spec }).filter
          (fun d => numKeyVals spec d == kv)
        = docs.filter (fun d => numKeyVals spec d == kv) := by
  have htoa : CursorImpl.toArray { documents := docs, srt := some spec }
      = List.insertionSort (fun a b => jsSortCmp spec a b ≤ 0) docs := by
    simp [CursorImpl.toArray]
  rw [htoa]
  refine ⟨List.perm_insertionSort _ docs, ?_, ?_⟩
  · apply pairwise_insertionSort_local
    · intro a _ b _ hnr
      have hanti := jsSortCmp_antisymm spec a b
      omega
    · intro a ha b hb c hc h1 h2
      exact jsSortCmp_trans_num spec a b c hdir (hnum a ha) (hnum b hb) (hnum c hc) h1 h2
  · apply filter_insertionSort_stable
    intro a ha b hb hpa hpb
    have hab : numKeyVals spec a = numKeyVals spec b := by
      have h1 : numKeyVals spec a = kv := by simpa using hpa
      have h2 : numKeyVals spec b = kv := by simpa using hpb
      rw [h1, h2]
    have := jsSortCmp_eq_zero_of_keyVals spec a b (hnum a ha) (hnum b hb) hab
    omega

/-- Claim C7 witness: three documents with numeric key `k`, two of them tied
on `k = 2` with distinguishing tags; the sorted output is ordered by `k` and
the tied pair keeps its fetched order. -/
theorem C7_witness :
    (∀ p ∈ [("k", (1 : Int))], p.2 = 1 ∨ p.2 = -1) ∧
      (List.Perm
        (CursorImpl.toArray
          { documents := [.obj [("k", .num 2), ("t", .num 1)], .obj [("k", .num 1)],
              .obj [("k", .num 2), ("t", .num 2)]],
            srt := some [("k", 1)] })
        [.obj [("k", .num 2), ("t", .num 1)], .obj [("k", .num 1)],
          .obj [("k", .num 2), ("t", .num 2)]] ∧
      List.Pairwise (fun a b => jsSortCmp [("k", 1)] a b ≤ 0)
        (CursorImpl.toArray
          { documents := [.obj [("k", .num 2), ("t", .num 1)], .obj [("k", .num 1)],
              .obj [("k", .num 2), ("t", .num 2)]],
            srt := some [("k", 1)] }) ∧
      (CursorImpl.toArray
          { documents := [.obj [("k", .num 2), ("t", .num 1)], .obj [("k", .num 1)],
              .obj [("k", .num 2), ("t", .num 2)]],
            srt := some [("k", 1)] }).filter
          (fun d => numKeyVals [("k", 1)] d == [2])
        = [.obj [("k", .num 2), ("t", .num 1)], .obj [("k", .num 1)],
            .obj [("k", .num 2), ("t", .num 2)]].filter
            (fun d => numKeyVals [("k", 1)] d == [2])) :=
  ⟨by decide,
    C7_theorem
      [.obj [("k", .num 2), ("t", .num 1)], .obj [("k", .num 1)],
        .obj [("k", .num 2), ("t", .num 2)]]
      [("k", 1)] [2] (by decide)
      (by
        intro d hd p hp
        fin_cases hd <;> fin_cases hp <;> exact ⟨_, rfl⟩)⟩

/-- Claim C4 counterexample: the document `{a: {b: 0}}` (cell 0 holding a
reference to cell 1) updated with `{$set: {"a.b": 1}}`.  The shallow copy
shares cell 1 with the input, and the dotted-path assignment mutates cell 1
in place, so the INPUT document reads back changed, as `{a: {b: 1}}`. -/
theorem C4_counterexample :
    hToVal 3 ⟨2, [(0, .objCell [("a", .ref 1)]), (1, .objCell [("b", .num 0)])]⟩ (.ref 0)
        = .ok (.obj [("a", .obj [("b", .num 0)])]) ∧
      (applyUpdateH 2 ⟨2, [(0, .objCell [("a", .ref 1)]), (1, .objCell [("b", .num 0)])]⟩
          (.ref 0) [("$set", [("a.b", .num 1)])]).bind (fun p => hToVal 3 p.1 (.ref 0))
        = .ok (.obj [("a", .obj [("b", .num 1)])]) ∧
      (JsRes.ok (JsVal.obj [("a", .obj [("b", .num 0)])])
        ≠ JsRes.ok (JsVal.obj [("a", .obj [("b", .num 1)])])) :=
  ⟨rfl, rfl, by simp⟩

/-- A heap value's reference, if any, lies below the bound. -/
def hvalRefBelowB (v : HVal) (n : Nat) : Bool :=
  match v with
  | .ref a => a < n
  | _ => true

/-- All references stored in a cell lie below the bound. -/
def objRefsBelowB (o : HObj) (n : Nat) : Bool :=
  match o with
  | .objCell fields => fields.all (fun p => hvalRefBelowB p.2 n)
  | .arrCell elems => elems.all (fun v => hvalRefBelowB v n)

/-- Well-formed heap: every cell's address and every stored reference lie
below the allocation counter. -/
def Heap.wfB (h : Heap) : Bool :=
  h.cells.all (fun p => decide (p.1 < h.next) && objRefsBelowB p.2 h.next)

/-- The frame relation: the evolved heap agrees with the base heap on every
address the base could have allocated, and only grows the counter. -/
def frameExt (h0 h : Heap) : Prop :=
  (∀ a, a < h0.next → h.get a = h0.get a) ∧ h0.next ≤ h.next

theorem frameExt_refl (h0 : Heap) : frameExt h0 h0 :=
  ⟨fun _ _ => rfl, Nat.le_refl _⟩

/-- Association lookup is unaffected by an in-place replacement at a
different key. -/
theorem lookup_setCell_ne (cells : List (Nat × HObj)) (a b : Nat) (o : HObj)
    (hne : b ≠ a) :
    (cells.map (fun p => if p.1 == a then (a, o) else p)).lookup b = cells.lookup b := by
  induction cells with
  | nil => rfl
  | cons p rest ih =>
    obtain ⟨k, c⟩ := p
    simp only [List.map_cons]
    by_cases hk : k = a
    · subst hk
      rw [if_pos (by simp)]
      have hb : (b == k) = false := beq_eq_false_iff_ne.mpr hne
      simp only [List.lookup, hb]
      exact ih
    · rw [if_neg (by simp [hk])]
      simp only [List.lookup]
      cases hbk : b == k with
      | false => simp only [hbk]; exact ih
      | true => simp only [hbk]

/-- Overwriting a cell at or above the base counter preserves the frame. -/
theorem frameExt_setCell (h0 h : Heap) (hf : frameExt h0 h) (a : Nat)
    (ha : h0.next ≤ a) (o : HObj) : frameExt h0 (h.setCell a o) := by
  refine ⟨fun b hb => ?_, ?_⟩
  · have hne : b ≠ a := by omega
    show (Heap.setCell h a o).get b = _
    unfold Heap.setCell Heap.get
    simp only
    rw [lookup_setCell_ne h.cells a b o hne]
    exact hf.1 b hb
  · exact hf.2

/-- Allocating preserves the frame. -/
theorem frameExt_alloc (h0 h : Heap) (hf : frameExt h0 h) (o : HObj) :
    frameExt h0 (h.alloc o).2 := by
  have hmono := hf.2
  refine ⟨fun b hb => ?_, ?_⟩
  · have hne : b ≠ h.next := by omega
    have hb' : (b == h.next) = false := beq_eq_false_iff_ne.mpr hne
    show (Heap.alloc h o).2.get b = _
    unfold Heap.alloc Heap.get
    simp only [List.lookup, hb']
    exact hf.1 b hb
  · unfold Heap.alloc
    simp only
    omega

/-- A successful single-key assignment through a reference is an in-place
overwrite of that reference's cell. -/
theorem hSetOwn_ref_result (h : Heap) (r : Nat) (key : String) (v : HVal) (h2 : Heap)
    (hok : hSetOwn h (.ref r) key v = .ok h2) : ∃ o, h2 = h.setCell r o := by
  simp only [hSetOwn] at hok
  split at hok
  · split at hok
    · simp only [JsRes.ok.injEq] at hok; exact ⟨_, hok.symm⟩
    · simp only [JsRes.ok.injEq] at hok; exact ⟨_, hok.symm⟩
  · split at hok
    · split at hok
      · simp only [JsRes.ok.injEq] at hok; exact ⟨_, hok.symm⟩
      · split at hok
        · simp only [JsRes.ok.injEq] at hok; exact ⟨_, hok.symm⟩
        · simp at hok
    · simp at hok
  · simp at hok

/-- A single-key delete through a reference either leaves the heap unchanged
or overwrites that reference's cell. -/
theorem hDeleteOwn_ref_result (h : Heap) (r : Nat) (key : String) :
    hDeleteOwn h (.ref r) key = h ∨ ∃ o, hDeleteOwn h (.ref r) key = h.setCell r o := by
  simp only [hDeleteOwn]
  split
  · exact Or.inr ⟨_, rfl⟩
  · split
    · exact Or.inr ⟨_, rfl⟩
    · exact Or.inl rfl
  · exact Or.inl rfl

/-- A dot-free `setNestedProperty` on the fresh copy writes only the copy's
cell, preserving the frame. -/
theorem hSetNested_frame (h0 h : Heap) (hf : frameExt h0 h) (r : Nat)
    (hr : h0.next ≤ r) (field : String) (v : HVal) (h2 : Heap)
    (hseg : splitPath field = [field])
    (hok : hSetNested h (.ref r) field v = .ok h2) : frameExt h0 h2 := by
  unfold hSetNested at hok
  rw [hseg] at hok
  obtain ⟨o, rfl⟩ := hSetOwn_ref_result h r field v h2 hok
  exact frameExt_setCell h0 h hf r hr o

/-- A dot-free `deleteNestedProperty` on the fresh copy preserves the
frame. -/
theorem hDeleteNested_frame (h0 h : Heap) (hf : frameExt h0 h) (r : Nat)
    (hr : h0.next ≤ r) (field : String) (h2 : Heap)
    (hseg : splitPath field = [field])
    (hok : hDeleteNested h (.ref r) field = .ok h2) : frameExt h0 h2 := by
  unfold hDeleteNested at hok
  rw [hseg] at hok
  have hok2 : JsRes.ok (hDeleteOwn h (.ref r) field) = .ok h2 := hok
  simp only [JsRes.ok.injEq] at hok2
  subst hok2
  rcases hDeleteOwn_ref_result h r field with he | ⟨o, he⟩
  · rw [he]; exact hf
  · rw [he]; exact frameExt_setCell h0 h hf r hr o

/-- The `$set` loop preserves the frame on dot-free fields. -/
theorem hSetLoop_frame (h0 : Heap) (r : Nat) (hr : h0.next ≤ r) :
    ∀ (fields : List (String × HVal)) (h : Heap), frameExt h0 h →
      (∀ fv ∈ fields, splitPath fv.1 = [fv.1]) →
      ∀ h2, hSetLoop h (.ref r) fields = .ok h2 → frameExt h0 h2 := by
  intro fields
  induction fields with
  | nil =>
    intro h hf _ h2 hok
    simp only [hSetLoop, JsRes.ok.injEq] at hok
    exact hok ▸ hf
  | cons fv rest ih =>
    intro h hf hseg h2 hok
    obtain ⟨field, v⟩ := fv
    simp only [hSetLoop] at hok
    cases hs : hSetNested h (.ref r) field v with
    | ok hmid =>
      rw [hs] at hok
      simp only [JsRes.bind_ok] at hok
      exact ih hmid
        (hSetNested_frame h0 h hf r hr field v hmid (hseg (field, v) (List.mem_cons_self _ _)) hs)
        (fun fv2 hfv => hseg fv2 (List.mem_cons_of_mem _ hfv)) h2 hok
    | thrown e => rw [hs] at hok; simp at hok
    | diverge => rw [hs] at hok; simp at hok

/-- The `$unset` loop preserves the frame on dot-free fields. -/
theorem hUnsetLoop_frame (h0 : Heap) (r : Nat) (hr : h0.next ≤ r) :
    ∀ (fields : List (String × HVal)) (h : Heap), frameExt h0 h →
      (∀ fv ∈ fields, splitPath fv.1 = [fv.1]) →
      ∀ h2, hUnsetLoop h (.ref r) fields = .ok h2 → frameExt h0 h2 := by
  intro fields
  induction fields with
  | nil =>
    intro h hf _ h2 hok
    simp only [hUnsetLoop, JsRes.ok.injEq] at hok
    exact hok ▸ hf
  | cons fv rest ih =>
    intro h hf hseg h2 hok
    obtain ⟨field, v⟩ := fv
    simp only [hUnsetLoop] at hok
    cases hs : hDeleteNested h (.ref r) field with
    | ok hmid =>
      rw [hs] at hok
      simp only [JsRes.bind_ok] at hok
      exact ih hmid
        (hDeleteNested_frame h0 h hf r hr field hmid (hseg (field, v) (List.mem_cons_self _ _)) hs)
        (fun fv2 hfv => hseg fv2 (List.mem_cons_of_mem _ hfv)) h2 hok
    | thrown e => rw [hs] at hok; simp at hok
    | diverge => rw [hs] at hok; simp at hok

/-- The `$inc` loop preserves the frame on dot-free fields. -/
theorem hIncLoop_frame (h0 : Heap) (r : Nat) (hr : h0.next ≤ r) :
    ∀ (fields : List (String × HVal)) (h : Heap), frameExt h0 h →
      (∀ fv ∈ fields, splitPath fv.1 = [fv.1]) →
      ∀ h2, hIncLoop h (.ref r) fields = .ok h2 → frameExt h0 h2 := by
  intro fields
  induction fields with
  | nil =>
    intro h hf _ h2 hok
    simp only [hIncLoop, JsRes.ok.injEq] at hok
    exact hok ▸ hf
  | cons fv rest ih =>
    intro h hf hseg h2 hok
    obtain ⟨field, v⟩ := fv
    simp only [hIncLoop] at hok
    cases hs : hSetNested h (.ref r) field
        (hPlus (if hTruthy (hGetNested h (.ref r) field) = true
                then hGetNested h (.ref r) field else .num 0) v) with
    | ok hmid =>
      rw [hs] at hok
      simp only [JsRes.bind_ok] at hok
      exact ih hmid
        (hSetNested_frame h0 h hf r hr field _ hmid (hseg (field, v) (List.mem_cons_self _ _)) hs)
        (fun fv2 hfv => hseg fv2 (List.mem_cons_of_mem _ hfv)) h2 hok
    | thrown e => rw [hs] at hok; simp at hok
    | diverge => rw [hs] at hok; simp at hok

/-- Storing a freshly allocated array at a dot-free field preserves the
frame. -/
theorem hSetArrField_frame (h0 h : Heap) (hf : frameExt h0 h) (r : Nat)
    (hr : h0.next ≤ r) (field : String) (elems : List HVal) (h2 : Heap)
    (hseg : splitPath field = [field])
    (hok : hSetArrField h (.ref r) field elems = .ok h2) : frameExt h0 h2 := by
  simp only [hSetArrField, Heap.alloc] at hok
  refine hSetNested_frame h0 _ ?_ r hr field _ h2 hseg hok
  exact frameExt_alloc h0 h hf (.arrCell elems)

/-- Contents of a freshly allocated array cell. -/
theorem hArrElems_fresh (h : Heap) (elems : List HVal) :
    hArrElems ⟨h.next + 1, (h.next, .arrCell elems) :: h.cells⟩ (.ref h.next) = some elems := by
  simp [hArrElems, Heap.get, List.lookup]

/-- The `$push` loop preserves the frame on dot-free fields. -/
theorem hPushLoop_frame (h0 : Heap) (r : Nat) (hr : h0.next ≤ r) :
    ∀ (fields : List (String × HVal)) (h : Heap), frameExt h0 h →
      (∀ fv ∈ fields, splitPath fv.1 = [fv.1]) →
      ∀ h2, hPushLoop h (.ref r) fields = .ok h2 → frameExt h0 h2 := by
  intro fields
  induction fields with
  | nil =>
    intro h hf _ h2 hok
    simp only [hPushLoop, JsRes.ok.injEq] at hok
    exact hok ▸ hf
  | cons fv rest ih =>
    intro h hf hseg h2 hok
    obtain ⟨field, v⟩ := fv
    have hseg1 : splitPath field = [field] := hseg (field, v) (List.mem_cons_self _ _)
    have hsegr : ∀ fv2 ∈ rest, splitPath fv2.1 = [fv2.1] :=
      fun fv2 hfv => hseg fv2 (List.mem_cons_of_mem _ hfv)
    simp only [hPushLoop] at hok
    by_cases ht : hTruthy (hGetNested h (.ref r) field) = true
    · simp only [ht, if_true] at hok
      cases hae : hArrElems h (hGetNested h (.ref r) field) with
      | none => simp only [hae] at hok; cases hok
      | some elems =>
        simp only [hae] at hok
        cases hs : hSetArrField h (.ref r) field (elems ++ [v]) with
        | ok hmid =>
          rw [hs] at hok
          simp only [JsRes.bind_ok] at hok
          exact ih hmid (hSetArrField_frame h0 h hf r hr field _ hmid hseg1 hs) hsegr h2 hok
        | thrown e => rw [hs] at hok; simp at hok
        | diverge => rw [hs] at hok; simp at hok
    · simp only [ht, if_false, Bool.false_eq_true] at hok
      rcases he : h.alloc (.arrCell []) with ⟨na, H1⟩
      rw [he] at hok
      have he2 : na = h.next ∧ H1 = ⟨h.next + 1, (h.next, .arrCell []) :: h.cells⟩ := by
        have := he.symm
        simp only [Heap.alloc, Prod.mk.injEq] at this
        exact ⟨this.1, this.2⟩
      obtain ⟨hna, hH1⟩ := he2
      subst hna hH1
      have hfr1 : frameExt h0 ⟨h.next + 1, (h.next, HObj.arrCell []) :: h.cells⟩ := by
        have := frameExt_alloc h0 h hf (.arrCell [])
        simpa [Heap.alloc] using this
      rw [hArrElems_fresh h []] at hok
      simp only at hok
      cases hs : hSetArrField ⟨h.next + 1, (h.next, HObj.arrCell []) :: h.cells⟩
          (.ref r) field ([] ++ [v]) with
      | ok hmid =>
        rw [hs] at hok
        simp only [JsRes.bind_ok] at hok
        exact ih hmid
          (hSetArrField_frame h0 _ hfr1 r hr field _ hmid hseg1 hs) hsegr h2 hok
      | thrown e => rw [hs] at hok; simp at hok
      | diverge => rw [hs] at hok; simp at hok

/-- The `$pull` loop preserves the frame on dot-free fields (the element
filter only reads the heap). -/
theorem hPullLoop_frame (h0 : Heap) (r : Nat) (hr : h0.next ≤ r) (fuel : Nat) :
    ∀ (fields : List (String × HVal)) (h : Heap), frameExt h0 h →
      (∀ fv ∈ fields, splitPath fv.1 = [fv.1]) →
      ∀ h2, hPullLoop fuel h (.ref r) fields = .ok h2 → frameExt h0 h2 := by
  intro fields
  induction fields with
  | nil =>
    intro h hf _ h2 hok
    simp only [hPullLoop, JsRes.ok.injEq] at hok
    exact hok ▸ hf
  | cons fv rest ih =>
    intro h hf hseg h2 hok
    obtain ⟨field, v⟩ := fv
    have hseg1 : splitPath field = [field] := hseg (field, v) (List.mem_cons_self _ _)
    have hsegr : ∀ fv2 ∈ rest, splitPath fv2.1 = [fv2.1] :=
      fun fv2 hfv => hseg fv2 (List.mem_cons_of_mem _ hfv)
    simp only [hPullLoop] at hok
    cases hae : hArrElems h (hGetNested h (.ref r) field) with
    | none => simp only [hae] at hok; cases hok
    | some elems =>
      simp only [hae] at hok
      cases hkept : hPullFilter fuel h v elems with
      | ok kept =>
        rw [hkept] at hok
        simp only [JsRes.bind_ok] at hok
        cases hs : hSetArrField h (.ref r) field kept with
        | ok hmid =>
          rw [hs] at hok
          simp only [JsRes.bind_ok] at hok
          exact ih hmid (hSetArrField_frame h0 h hf r hr field _ hmid hseg1 hs) hsegr h2 hok
        | thrown e => rw [hs] at hok; simp at hok
        | diverge => rw [hs] at hok; simp at hok
      | thrown e => rw [hkept] at hok; simp at hok
      | diverge => rw [hkept] at hok; simp at hok

/-- The `$addToSet` loop preserves the frame on dot-free fields. -/
theorem hAddToSetLoop_frame (h0 : Heap) (r : Nat) (hr : h0.next ≤ r) :
    ∀ (fields : List (String × HVal)) (h : Heap), frameExt h0 h →
      (∀ fv ∈ fields, splitPath fv.1 = [fv.1]) →
      ∀ h2, hAddToSetLoop h (.ref r) fields = .ok h2 → frameExt h0 h2 := by
  intro fields
  induction fields with
  | nil =>
    intro h hf _ h2 hok
    simp only [hAddToSetLoop, JsRes.ok.injEq] at hok
    exact hok ▸ hf
  | cons fv rest ih =>
    intro h hf hseg h2 hok
    obtain ⟨field, v⟩ := fv
    have hseg1 : splitPath field = [field] := hseg (field, v) (List.mem_cons_self _ _)
    have hsegr : ∀ fv2 ∈ rest, splitPath fv2.1 = [fv2.1] :=
      fun fv2 hfv => hseg fv2 (List.mem_cons_of_mem _ hfv)
    simp only [hAddToSetLoop] at hok
    by_cases ht : hTruthy (hGetNested h (.ref r) field) = true
    · simp only [ht, if_true] at hok
      cases hae : hArrElems h (hGetNested h (.ref r) field) with
      | none => simp only [hae] at hok; cases hok
      | some elems =>
        simp only [hae] at hok
        by_cases hin : elems.any (fun x => hSameValueZero x v) = true
        · simp only [hin, if_true] at hok
          exact ih h hf hsegr h2 hok
        · simp only [hin, if_false, Bool.false_eq_true] at hok
          cases hs : hSetArrField h (.ref r) field (elems ++ [v]) with
          | ok hmid =>
            rw [hs] at hok
            simp only [JsRes.bind_ok] at hok
            exact ih hmid (hSetArrField_frame h0 h hf r hr field _ hmid hseg1 hs) hsegr h2 hok
          | thrown e => rw [hs] at hok; simp at hok
          | diverge => rw [hs] at hok; simp at hok
    · simp only [ht, if_false, Bool.false_eq_true] at hok
      rcases he : h.alloc (.arrCell []) with ⟨na, H1⟩
      rw [he] at hok
      have he2 : na = h.next ∧ H1 = ⟨h.next + 1, (h.next, .arrCell []) :: h.cells⟩ := by
        have := he.symm
        simp only [Heap.alloc, Prod.mk.injEq] at this
        exact ⟨this.1, this.2⟩
      obtain ⟨hna, hH1⟩ := he2
      subst hna hH1
      have hfr1 : frameExt h0 ⟨h.next + 1, (h.next, HObj.arrCell []) :: h.cells⟩ := by
        have := frameExt_alloc h0 h hf (.arrCell [])
        simpa [Heap.alloc] using this
      rw [hArrElems_fresh h []] at hok
      simp only [List.any_nil, Bool.false_eq_true, if_false] at hok
      cases hs : hSetArrField ⟨h.next + 1, (h.next, HObj.arrCell []) :: h.cells⟩
          (.ref r) field ([] ++ [v]) with
      | ok hmid =>
        rw [hs] at hok
        simp only [JsRes.bind_ok] at hok
        exact ih hmid (hSetArrField_frame h0 _ hfr1 r hr field _ hmid hseg1 hs) hsegr h2 hok
      | thrown e => rw [hs] at hok; simp at hok
      | diverge => rw [hs] at hok; simp at hok

/-- The `$pop` loop preserves the frame on dot-free fields. -/
theorem hPopLoop_frame (h0 : Heap) (r : Nat) (hr : h0.next ≤ r) :
    ∀ (fields : List (String × HVal)) (h : Heap), frameExt h0 h →
      (∀ fv ∈ fields, splitPath fv.1 = [fv.1]) →
      ∀ h2, hPopLoop h (.ref r) fields = .ok h2 → frameExt h0 h2 := by
  intro fields
  induction fields with
  | nil =>
    intro h hf _ h2 hok
    simp only [hPopLoop, JsRes.ok.injEq] at hok
    exact hok ▸ hf
  | cons fv rest ih =>
    intro h hf hseg h2 hok
    obtain ⟨field, v⟩ := fv
    have hseg1 : splitPath field = [field] := hseg (field, v) (List.mem_cons_self _ _)
    have hsegr : ∀ fv2 ∈ rest, splitPath fv2.1 = [fv2.1] :=
      fun fv2 hfv => hseg fv2 (List.mem_cons_of_mem _ hfv)
    simp only [hPopLoop] at hok
    cases hae : hArrElems h (hGetNested h (.ref r) field) with
    | none => simp only [hae] at hok; cases hok
    | some elems =>
      simp only [hae] at hok
      by_cases h1 : hStrictEq v (.num 1) = true
      · simp only [h1, if_true] at hok
        cases hs : hSetArrField h (.ref r) field elems.dropLast with
        | ok hmid =>
          rw [hs] at hok
          simp only [JsRes.bind_ok] at hok
          exact ih hmid (hSetArrField_frame h0 h hf r hr field _ hmid hseg1 hs) hsegr h2 hok
        | thrown e => rw [hs] at hok; simp at hok
        | diverge => rw [hs] at hok; simp at hok
      · simp only [h1, if_false, Bool.false_eq_true] at hok
        by_cases hm1 : hStrictEq v (.num (-1)) = true
        · simp only [hm1, if_true] at hok
          cases hs : hSetArrField h (.ref r) field (elems.drop 1) with
          | ok hmid =>
            rw [hs] at hok
            simp only [JsRes.bind_ok] at hok
            exact ih hmid (hSetArrField_frame h0 h hf r hr field _ hmid hseg1 hs) hsegr h2 hok
          | thrown e => rw [hs] at hok; simp at hok
          | diverge => rw [hs] at hok; simp at hok
        · simp only [hm1, if_false, Bool.false_eq_true] at hok
          exact ih h hf hsegr h2 hok

/-- Operator dispatch preserves the frame on dot-free fields. -/
theorem opApplyH_frame (h0 : Heap) (r : Nat) (hr : h0.next ≤ r) (fuel : Nat)
    (operator : String) (fields : List (String × HVal)) (h : Heap)
    (hf : frameExt h0 h)
    (hseg : ∀ fv ∈ fields, splitPath fv.1 = [fv.1])
    (h2 : Heap) (hok : opApplyH fuel operator fields h (.ref r) = .ok h2) :
    frameExt h0 h2 := by
  unfold opApplyH at hok
  split at hok
  · exact hSetLoop_frame h0 r hr fields h hf hseg h2 hok
  · exact hUnsetLoop_frame h0 r hr fields h hf hseg h2 hok
  · exact hIncLoop_frame h0 r hr fields h hf hseg h2 hok
  · exact hPushLoop_frame h0 r hr fields h hf hseg h2 hok
  · exact hPullLoop_frame h0 r hr fuel fields h hf hseg h2 hok
  · exact hAddToSetLoop_frame h0 r hr fields h hf hseg h2 hok
  · exact hPopLoop_frame h0 r hr fields h hf hseg h2 hok
  · simp only [JsRes.ok.injEq] at hok
    exact hok ▸ hf

/-- The operator loop preserves the frame on dot-free fields. -/
theorem opsLoopH_frame (h0 : Heap) (r : Nat) (hr : h0.next ≤ r) (fuel : Nat) :
    ∀ (ops : List (String × List (String × HVal))) (h : Heap), frameExt h0 h →
      (∀ op ∈ ops, ∀ fv ∈ op.2, splitPath fv.1 = [fv.1]) →
      ∀ h2, opsLoopH fuel ops h (.ref r) = .ok h2 → frameExt h0 h2 := by
  intro ops
  induction ops with
  | nil =>
    intro h hf _ h2 hok
    simp only [opsLoopH, JsRes.ok.injEq] at hok
    exact hok ▸ hf
  | cons op rest ih =>
    intro h hf hseg h2 hok
    obtain ⟨operator, fields⟩ := op
    simp only [opsLoopH] at hok
    cases ha : opApplyH fuel operator fields h (.ref r) with
    | ok hmid =>
      rw [ha] at hok
      simp only [JsRes.bind_ok] at hok
      exact ih hmid
        (opApplyH_frame h0 r hr fuel operator fields h hf
          (fun fv hfv => hseg (operator, fields) (List.mem_cons_self _ _) fv hfv) hmid ha)
        (fun op2 hop2 => hseg op2 (List.mem_cons_of_mem _ hop2)) h2 hok
    | thrown e => rw [ha] at hok; simp at hok
    | diverge => rw [ha] at hok; simp at hok

/-- The Mutation Applier writes only the freshly allocated copy and fresh
cells when every field path is dot-free: the heap agrees with the input heap
on every previously allocatable address, and the returned document is the
fresh copy's reference. -/
theorem applyUpdateH_frame (fuel : Nat) (h0 : Heap) (document : HVal)
    (update : List (String × List (String × HVal)))
    (hseg : ∀ op ∈ update, ∀ fv ∈ op.2, splitPath fv.1 = [fv.1])
    (h2 : Heap) (res : HVal)
    (hok : applyUpdateH fuel h0 document update = .ok (h2, res)) :
    frameExt h0 h2 ∧ res = .ref h0.next := by
  have hok2 : (opsLoopH fuel update (h0.alloc (applyContents h0 document)).2
      (.ref (h0.alloc (applyContents h0 document)).1)).bind
        (fun hZ => JsRes.ok (hZ, (.ref (h0.alloc (applyContents h0 document)).1 : HVal)))
      = .ok (h2, res) := hok
  have hr1 : (h0.alloc (applyContents h0 document)).1 = h0.next := rfl
  rw [hr1] at hok2
  have hfr1 : frameExt h0 (h0.alloc (applyContents h0 document)).2 :=
    frameExt_alloc h0 h0 (frameExt_refl h0) _
  cases hop : opsLoopH fuel update (h0.alloc (applyContents h0 document)).2
      (.ref h0.next) with
  | ok hZ =>
    rw [hop] at hok2
    simp only [JsRes.bind, JsRes.ok.injEq, Prod.mk.injEq] at hok2
    obtain ⟨hh, hres⟩ := hok2
    subst hh
    exact ⟨opsLoopH_frame h0 h0.next (Nat.le_refl _) fuel update _ hfr1 hseg hZ hop,
      hres.symm⟩
  | thrown e => rw [hop] at hok2; simp [JsRes.bind] at hok2
  | diverge => rw [hop] at hok2; simp [JsRes.bind] at hok2

/-- A successful association lookup locates a member. -/
theorem lookup_mem {α β : Type} [BEq α] [LawfulBEq α] :
    ∀ (l : List (α × β)) (k : α) (v : β), l.lookup k = some v → (k, v) ∈ l := by
  intro l
  induction l with
  | nil => intro k v h; simp [List.lookup] at h
  | cons p rest ih =>
    intro k v h
    obtain ⟨k2, v2⟩ := p
    simp only [List.lookup] at h
    cases hk : k == k2 with
    | true =>
      rw [hk] at h
      simp only [Option.some.injEq] at h
      subst h
      have : k = k2 := eq_of_beq hk
      subst this
      exact List.mem_cons_self _ _
    | false =>
      rw [hk] at h
      exact List.mem_cons_of_mem _ (ih k v h)

/-- Readback congruence over a field list. -/
theorem hToValFields_congr (f g : HVal → JsRes JsVal) :
    ∀ fields : List (String × HVal), (∀ p ∈ fields, f p.2 = g p.2) →
      hToValFields f fields = hToValFields g fields := by
  intro fields
  induction fields with
  | nil => intro _; rfl
  | cons p rest ih =>
    intro hp
    obtain ⟨k, x⟩ := p
    simp only [hToValFields]
    rw [hp (k, x) (List.mem_cons_self _ _),
      ih (fun q hq => hp q (List.mem_cons_of_mem _ hq))]

/-- Readback congruence over an element list. -/
theorem hToValList_congr (f g : HVal → JsRes JsVal) :
    ∀ elems : List HVal, (∀ x ∈ elems, f x = g x) →
      hToValList f elems = hToValList g elems := by
  intro elems
  induction elems with
  | nil => intro _; rfl
  | cons x rest ih =>
    intro hp
    simp only [hToValList]
    rw [hp x (List.mem_cons_self _ _),
      ih (fun y hy => hp y (List.mem_cons_of_mem _ hy))]

/-- Readback through a well-formed base heap only touches addresses below
the base counter, so a frame-preserving evolution leaves it unchanged. -/
theorem hToVal_agrees (h0 hx : Heap)
    (hagree : ∀ a, a < h0.next → hx.get a = h0.get a)
    (hwf : Heap.wfB h0 = true) :
    ∀ (fuel : Nat) (v : HVal), hvalRefBelowB v h0.next = true →
      hToVal fuel hx v = hToVal fuel h0 v := by
  intro fuel
  induction fuel with
  | zero => intro v _; rfl
  | succ fuel ih =>
    intro v hv
    cases v with
    | undef => rfl
    | null => rfl
    | bool b => rfl
    | num n => rfl
    | nan => rfl
    | str s => rfl
    | ref a =>
      have ha : a < h0.next := by simpa [hvalRefBelowB] using hv
      simp only [hToVal]
      rw [hagree a ha]
      cases hg : h0.get a with
      | none => rfl
      | some cell =>
        have hmem : (a, cell) ∈ h0.cells := lookup_mem h0.cells a cell hg
        have hall := List.all_eq_true.mp hwf (a, cell) hmem
        simp only [Bool.and_eq_true] at hall
        have hcell : objRefsBelowB cell h0.next = true := hall.2
        cases cell with
        | objCell fields =>
          simp only [objRefsBelowB] at hcell
          have hfields : ∀ p ∈ fields, hvalRefBelowB p.2 h0.next = true :=
            fun p hp => List.all_eq_true.mp hcell p hp
          have hc := hToValFields_congr (hToVal fuel hx) (hToVal fuel h0) fields
            (fun p hp => ih p.2 (hfields p hp))
          simp only [hc]
        | arrCell elems =>
          simp only [objRefsBelowB] at hcell
          have helems : ∀ x ∈ elems, hvalRefBelowB x h0.next = true :=
            fun x hxm => List.all_eq_true.mp hcell x hxm
          have hc := hToValList_congr (hToVal fuel hx) (hToVal fuel h0) elems
            (fun x hxm => ih x (helems x hxm))
          simp only [hc]

/-- Claim C4 (amended): `applyUpdate` returns a freshly allocated document
object, distinct from the input; for every update whose field paths are all
single-segment (dot-free), the input document is unchanged at every field
and every nesting depth.  (Dotted paths DO mutate the input through the
nested containers shared by the shallow copy — the counterexample — so the
claim's unconditional form fails.) -/
theorem C4_theorem (fuel : Nat) (h0 : Heap) (d : Nat)
    (update : List (String × List (String × HVal)))
    (hwf : Heap.wfB h0 = true)
    (hd : d < h0.next)
    (hseg : ∀ op ∈ update, ∀ fv ∈ op.2, splitPath fv.1 = [fv.1])
    (h2 : Heap) (res : HVal)
    (hok : applyUpdateH fuel h0 (.ref d) update = .ok (h2, res)) :
    res = .ref h0.next ∧ res ≠ .ref d ∧
      ∀ f, hToVal f h2 (.ref d) = hToVal f h0 (.ref d) := by
  obtain ⟨hfr, hres⟩ := applyUpdateH_frame fuel h0 (.ref d) update hseg h2 res hok
  refine ⟨hres, ?_, ?_⟩
  · rw [hres]
    intro hcontra
    simp only [HVal.ref.injEq] at hcontra
    omega
  · intro f
    exact hToVal_agrees h0 h2 hfr.1 hwf f (.ref d) (by simpa [hvalRefBelowB] using hd)

/-- Claim C4 witness: the two-cell document `{a: {b: 0}}` updated with the
dot-free `{$set: {c: 5}}` reads back unchanged (while the returned copy is
the fresh cell 2). -/
theorem C4_witness :
    Heap.wfB ⟨2, [(0, .objCell [("a", .ref 1)]), (1, .objCell [("b", .num 0)])]⟩ = true ∧
      applyUpdateH 2 ⟨2, [(0, .objCell [("a", .ref 1)]), (1, .objCell [("b", .num 0)])]⟩
          (.ref 0) [("$set", [("c", .num 5)])]
        = .ok (⟨3, [(2, .objCell [("a", .ref 1), ("c", .num 5)]),
            (0, .objCell [("a", .ref 1)]), (1, .objCell [("b", .num 0)])]⟩, .ref 2) ∧
      ((.ref 2 : HVal) = .ref 2 ∧ (.ref 2 : HVal) ≠ .ref 0 ∧
        ∀ f, hToVal f
            ⟨3, [(2, .objCell [("a", .ref 1), ("c", .num 5)]),
              (0, .objCell [("a", .ref 1)]), (1, .objCell [("b", .num 0)])]⟩ (.ref 0)
          = hToVal f ⟨2, [(0, .objCell [("a", .ref 1)]), (1, .objCell [("b", .num 0)])]⟩
              (.ref 0)) :=
  ⟨rfl, rfl,
    C4_theorem 2 ⟨2, [(0, .objCell [("a", .ref 1)]), (1, .objCell [("b", .num 0)])]⟩ 0
      [("$set", [("c", .num 5)])] rfl (by decide) (by decide)
      ⟨3, [(2, .objCell [("a", .ref 1), ("c", .num 5)]),
        (0, .objCell [("a", .ref 1)]), (1, .objCell [("b", .num 0)])]⟩ (.ref 2) rfl⟩
